import Mathlib

/-!
Shallow embedding of the comic-generation pipeline of `src/lib/comic-pipeline.ts`
(with its data model from `src/lib/types.ts`), together with theorems that
settle the specification claims about it.

Modelling conventions:
* JavaScript strings are modelled as Lean `String` / `List Char`; JS `.length`
  counts UTF-16 code units, which coincides with codepoint count for the
  Basic Multilingual Plane text this pipeline handles.
* The regular expression `\s` is modelled by `Char.isWhitespace`.
* Fallible code (thrown `Error`s) is modelled with `Except String`.
* External collaborators (the OpenAI chat client, the Replicate image client,
  the PDF text extractor, the filesystem) are modelled as explicit function
  parameters ("oracles"), so every definition stays executable.
* JS floating-point arithmetic in the PDF layout is modelled over `ℚ`
  (the layout claims are about the symbolic formulas, not float rounding),
  and `Math.floor(((i+1)/n)*40)` in the progress computation is modelled as
  the exact `((i+1)*40)/n` on `Nat` (they agree on the small panel counts
  the route admits).
-/

/-! ### Whitespace splitting (`text.trim().split(/\s+/).filter(Boolean)`)

`splitWsAux cs acc` walks the characters, accumulating the current token
(in reverse) in `acc`; whitespace flushes the token.  `splitWs cs` is the list
of maximal whitespace-free runs of `cs`, which is exactly what
`trim` + `split(/\s+/)` + `filter(Boolean)` computes in the source. -/
def splitWsAux : List Char → List Char → List (List Char)
  | [], acc => if acc.isEmpty then [] else [acc.reverse]
  | c :: cs, acc =>
    if c.isWhitespace then
      if acc.isEmpty then splitWsAux cs [] else acc.reverse :: splitWsAux cs []
    else
      splitWsAux cs (c :: acc)

def splitWs (cs : List Char) : List (List Char) := splitWsAux cs []

/-- Embedding of JS `String.prototype.trim` at the character-list level. -/
def trimL (cs : List Char) : List Char :=
  ((cs.dropWhile Char.isWhitespace).reverse.dropWhile Char.isWhitespace).reverse

/-- State machine for `replace(/\s+/g, ' ')`: `prevWs` records whether the
previous character was part of a whitespace run already replaced. -/
def collapseWsAux : Bool → List Char → List Char
  | _, [] => []
  | prevWs, c :: cs =>
    if c.isWhitespace then
      if prevWs then collapseWsAux true cs else ' ' :: collapseWsAux true cs
    else
      c :: collapseWsAux false cs

/-- `cleanText` from comic-pipeline.ts: `text.trim().replace(/\s+/g, ' ')`. -/
def cleanText (s : String) : String := String.mk (collapseWsAux false (trimL s.data))

/-- `countWords` from comic-pipeline.ts: trim, return 0 for blank text,
otherwise the length of `split(/\s+/)`.  On trimmed non-blank text
`split(/\s+/)` yields exactly the maximal whitespace-free runs. -/
def countWords (s : String) : Nat :=
  let trimmed := trimL s.data
  if trimmed.isEmpty then 0 else (splitWs trimmed).length

/-- `MAX_WORDS` from comic-pipeline.ts. -/
def MAX_WORDS : Nat := 10000

/-! ### Dialogue wrapping (`wrapDialogue`) -/

/-- The greedy line-packing loop of `wrapDialogue`: `current` is the line
being assembled, words are appended while the joined length stays within
`maxChars`; otherwise the current line (if non-empty) is flushed and the
word starts a new line. -/
def wrapWordsAux (maxChars : Nat) : List Char → List (List Char) → List (List Char)
  | current, [] => if current.isEmpty then [] else [current]
  | current, w :: ws =>
    let next := if current.isEmpty then w else current ++ ' ' :: w
    if next.length ≤ maxChars then
      wrapWordsAux maxChars next ws
    else
      if current.isEmpty then
        wrapWordsAux maxChars w ws
      else
        current :: wrapWordsAux maxChars w ws

/-- `wrapDialogue` from comic-pipeline.ts: split into whitespace-separated
words, return `['']` when there are none, else greedily pack and keep at
most 4 lines (`lines.slice(0, 4)`). -/
def wrapDialogue (text : String) (maxCharsPerLine : Nat) : List String :=
  let words := splitWs text.data
  if words.isEmpty then [""]
  else ((wrapWordsAux maxCharsPerLine [] words).map String.mk).take 4

/-- Single-space join, the shape of the lines `wrapDialogue` builds and the
normal form `cleanText` produces. -/
def joinSp : List (List Char) → List Char
  | [] => []
  | [w] => w
  | w :: ws => w ++ ' ' :: joinSp ws

/-- JS `String.prototype.trim` on `String`. -/
def trimS (s : String) : String := String.mk (trimL s.data)

/-! ### JSON-ish values

The script generator and the Replicate URL normalizer perform dynamic shape
checks (`typeof x === 'string'`, `Array.isArray`, property access) on parsed
JSON / API responses.  `JValue` models those runtime values. -/

inductive JValue where
  | str (s : String)
  | num (n : Int)
  | bool (b : Bool)
  | null
  | arr (elems : List JValue)
  | obj (fields : List (String × JValue))

/-- JS truthiness test `!x` (for the values representable as `JValue`;
JS numbers are modelled as integers, enough for the `0` falsy case). -/
def jsFalsy : JValue → Bool
  | .str s => s.isEmpty
  | .num n => n == 0
  | .bool b => !b
  | .null => true
  | .arr _ => false
  | .obj _ => false

/-- JS property access `v[k]`: `none` models `undefined`
(non-objects have none of the properties we access). -/
def lookupField : JValue → String → Option JValue
  | .obj fields, k => (fields.find? (fun p => p.1 == k)).map (fun p => p.2)
  | _, _ => none

/-- `typeof x === 'string'` refinement of a possibly-absent value. -/
def asStr : Option JValue → Option String
  | some (.str s) => some s
  | _ => none

/-! ### Script generation (`generateScript`, lines 351-367) -/

structure Scene where
  title : Option String
  visual : String
  dialogue_telugu : String
deriving DecidableEq

/-- The filter of `generateScript`: keep scene objects whose `visual` and
`dialogue_telugu` fields are strings. -/
def sceneHasFields (v : JValue) : Bool :=
  (asStr (lookupField v "visual")).isSome && (asStr (lookupField v "dialogue_telugu")).isSome

/-- The map of `generateScript`: `title` kept verbatim when it is a string,
`visual` and `dialogue_telugu` trimmed. -/
def toScene (v : JValue) : Scene :=
  { title := asStr (lookupField v "title")
    visual := trimS ((asStr (lookupField v "visual")).getD "")
    dialogue_telugu := trimS ((asStr (lookupField v "dialogue_telugu")).getD "") }

def sceneCountMismatchMsg (got requested : Nat) : String :=
  "OpenAI returned " ++ toString got ++ " scenes instead of requested " ++
    toString requested ++ " scenes"

/-- The scene post-processing and validation of `generateScript` applied to the
parsed `scenes` array: filter scenes with string `visual`/`dialogue_telugu`,
truncate to `panelCount` (`slice(0, opts.panelCount)`), map/trim, then require
the count to match exactly. -/
def generateScriptScenes (sceneVals : List JValue) (panelCount : Nat) :
    Except String (List Scene) :=
  let scenes := ((sceneVals.filter sceneHasFields).take panelCount).map toScene
  if scenes.length ≠ panelCount then
    .error (sceneCountMismatchMsg scenes.length panelCount)
  else
    .ok scenes

/-! ### Replicate output URL normalization (`normalizeReplicateOutputUrl`) -/

/-- `normalizeReplicateOutputUrl` from comic-pipeline.ts:
`if (!output) return undefined`, then bare string, then array of strings,
then object `url` field, then object `output` array. -/
def normalizeReplicateOutputUrl (output : JValue) : Option String :=
  if jsFalsy output then none
  else
    match output with
    | .str s => some s
    | _ =>
      match output with
      | .arr (.str s :: _) => some s
      | _ =>
        match asStr (lookupField output "url") with
        | some s => some s
        | none =>
          match lookupField output "output" with
          | some (.arr (.str s :: _)) => some s
          | _ => none

/-- The check in `generatePanelImage` right after normalization:
`if (!replicateUrl) throw new Error('Replicate returned no image URL')`. -/
def panelImageUrl (output : JValue) : Except String String :=
  match normalizeReplicateOutputUrl output with
  | some url =>
    if url.isEmpty then .error "Replicate returned no image URL" else .ok url
  | none => .error "Replicate returned no image URL"

/-! ### Retry helper (`withRetry`)

The async operation is modelled as a function from the 0-based attempt number
to its outcome.  Besides the result we record the number of invocations and
the list of backoff delays awaited, in order.  `remaining` is the number of
retries still allowed (`opts.retries - attempt` in the source loop). -/

def retryAux {ε α : Type} (op : Nat → Except ε α) (baseDelayMs : Nat) (attempt : Nat) :
    Nat → Except ε α × Nat × List Nat
  | 0 =>
    match op attempt with
    | .ok a => (.ok a, 1, [])
    | .error e => (.error e, 1, [])
  | remaining + 1 =>
    match op attempt with
    | .ok a => (.ok a, 1, [])
    | .error _ =>
      let rest := retryAux op baseDelayMs (attempt + 1) remaining
      (rest.1, rest.2.1 + 1, baseDelayMs * 2 ^ attempt :: rest.2.2)

/-- `withRetry fn {retries, baseDelayMs}`: result, number of invocations of
`fn`, and the awaited delays `baseDelayMs * 2^attempt` in order. -/
def withRetryTrace {ε α : Type} (op : Nat → Except ε α) (retries baseDelayMs : Nat) :
    Except ε α × Nat × List Nat :=
  retryAux op baseDelayMs 0 retries

/-! ### Comic job data model (from `src/lib/types.ts`)

Pure metadata fields (`originalFilename`, `mimeType`, `uploadedAt`,
`fileSize`) are never read by the pipeline and are omitted. -/

inductive ComicVisualStyle where
  | manga
  | indianComic
  | cinematic
  | watercolor
  | noir
deriving DecidableEq

inductive ComicInputType where
  | text
  | pdf
deriving DecidableEq

/-- `panelsPerPage : 2 | 4 | 6` (a closed union type in the source). -/
inductive PanelsPerPage where
  | two
  | four
  | six
deriving DecidableEq

def PanelsPerPage.val : PanelsPerPage → Nat
  | .two => 2
  | .four => 4
  | .six => 6

structure ComicJobData where
  inputType : ComicInputType
  storyText : Option String
  filePath : Option String
  panelCount : Nat
  panelsPerPage : PanelsPerPage
  visualStyle : ComicVisualStyle
deriving DecidableEq

/-! ### Story text resolution (`getStoryText`) -/

def getStoryTextFallback (extractPdf : String → Except String String)
    (data : ComicJobData) : Except String String :=
  match data.inputType, data.filePath with
  | .pdf, none => .error "Missing PDF file"
  | .pdf, some p => extractPdf p
  | .text, _ => .error "Missing story text"

/-- `getStoryText` from comic-pipeline.ts.  The JS guard
`data.storyText && data.storyText.trim().length` is truthy exactly when
`storyText` is present and its trim is nonempty (the empty string is falsy). -/
def getStoryText (extractPdf : String → Except String String)
    (data : ComicJobData) : Except String String :=
  match data.storyText with
  | some t =>
    if (trimL t.data).isEmpty then getStoryTextFallback extractPdf data else .ok t
  | none => getStoryTextFallback extractPdf data

def tooLongMsg : String := "Story too long. Max " ++ toString MAX_WORDS ++ " words."

/-- The `extracting-text` stage body (comic-pipeline.ts lines 69-74):
resolve the story text, clean it, enforce the word-count bound. -/
def storyGuardStage (extractPdf : String → Except String String)
    (data : ComicJobData) : Except String String :=
  match getStoryText extractPdf data with
  | .error e => .error e
  | .ok storyText =>
    let cleanedText := cleanText storyText
    if countWords cleanedText > MAX_WORDS then .error tooLongMsg
    else .ok cleanedText

/-- The pipeline up to the first model call: the guard stage followed by the
story-analysis call (an oracle).  When the guard fails, the result is an error
independent of the oracle, i.e. no model call is made. -/
def storyThenAnalyze (extractPdf : String → Except String String)
    (analyze : String → Except String String) (data : ComicJobData) :
    Except String String :=
  match storyGuardStage extractPdf data with
  | .error e => .error e
  | .ok cleanedText => analyze cleanedText

/-- A plain-text job input as built by the upload route. -/
def mkTextData (s : String) : ComicJobData :=
  { inputType := .text
    storyText := some s
    filePath := none
    panelCount := 6
    panelsPerPage := .four
    visualStyle := .manga }

/-! ### Orchestrator job-record writes (`processComicJob` / `processComicJobInternal`)

The stateful `updateJob` calls are embedded as the ordered list of writes a
successful run performs.  A failing or timed-out run performs a prefix of
them, followed by the terminal `failed` write of the `catch` handler in
`processComicJob`. -/

inductive JobStatus where
  | pending
  | processing
  | completed
  | failed
deriving DecidableEq

/-- One `updateJob` call: which of the `status` / `progress` / `stage` fields
it sets, and whether it writes the `result` payload. -/
structure JobWrite where
  status : Option JobStatus
  progress : Option Nat
  stage : Option String
  touchesResult : Bool
deriving DecidableEq

def drawingStageLabel (i n : Nat) : String :=
  "drawing-panels (" ++ toString i ++ "/" ++ toString n ++ ")"

/-- `40 + Math.floor(((i + 1) / scenes.length) * 40)` (modelled exactly). -/
def panelProgressValue (i n : Nat) : Nat := 40 + ((i + 1) * 40) / n

/-- The two writes of one iteration of the panel loop: the progress/stage
write before the panel's work, then the result write after it. -/
def panelWrites (n : Nat) : List JobWrite :=
  (List.range n).flatMap fun i =>
    [⟨none, some (panelProgressValue i n), some (drawingStageLabel (i + 1) n), false⟩,
     ⟨none, none, none, true⟩]

/-- All `updateJob` writes of a successful `processComicJobInternal` run with
`n` scenes, in program order. -/
def internalWrites (n : Nat) : List JobWrite :=
  [⟨some .processing, some 5, some "initializing", false⟩,
   ⟨none, some 10, some "extracting-text", false⟩,
   -- the cleaned-text write-back into the job data (no status/progress/stage)
   ⟨none, none, none, false⟩,
   ⟨none, some 20, some "analyzing-story", false⟩,
   ⟨none, some 30, some "generating-script", true⟩,
   ⟨none, some 40, some "drawing-panels", false⟩] ++
  panelWrites n ++
  [⟨none, some 85, some "building-pdf", false⟩,
   ⟨some .completed, some 100, some "completed", true⟩]

/-- The terminal write of `processComicJob`'s catch handler (also taken on
timeout). -/
def failedWrite : JobWrite := ⟨some .failed, some 100, some "failed", true⟩

/-- How a run of `processComicJob` can unfold.  `Promise.race` only settles a
promise, it does not cancel `processComicJobInternal`:
* `success`: the internal function runs to completion before the timer fires.
* `errorAt k`: the internal function throws between its `k`-th and `(k+1)`-th
  `updateJob` call; it stops there and the catch handler writes `failedWrite`.
* `timeoutAt k j`: the 10-minute timer fires after `k` internal writes; the
  catch handler writes `failedWrite`, while the still-running internal
  function — which `updateJob` (a bare `Object.assign` with no terminal-state
  guard) keeps serving — performs `j` further writes (it may later stop on its
  own error, whose rejection is no longer observed, or run to completion). -/
inductive RunOutcome where
  | success
  | errorAt (k : Nat)
  | timeoutAt (k j : Nat)

/-- The `updateJob` write sequence an observer of the job record can see,
for each way the run can unfold. -/
def observedWrites (n : Nat) : RunOutcome → List JobWrite
  | .success => internalWrites n
  | .errorAt k => (internalWrites n).take k ++ [failedWrite]
  | .timeoutAt k j =>
    (internalWrites n).take k ++ [failedWrite] ++ ((internalWrites n).drop k).take j

def progressSeq (ws : List JobWrite) : List Nat := ws.filterMap (fun w => w.progress)

/-! ### PDF layout (`buildComicPdf`)

Geometry over `ℚ`; the page constants are the A4 point sizes of the source. -/

def pageWidthPt : ℚ := 59528 / 100

def pageHeightPt : ℚ := 84189 / 100

def pdfMargin : ℚ := 36

def pdfGutter : ℚ := 14

/-- `const columns = 2`. -/
def pdfColumns : Nat := 2

/-- `const rows = opts.panelsPerPage / 2`. -/
def rowsPerPage (p : PanelsPerPage) : Nat := p.val / 2

def cellWidth : ℚ := (pageWidthPt - pdfMargin * 2 - pdfGutter) / (pdfColumns : ℚ)

def cellHeight (p : PanelsPerPage) : ℚ :=
  (pageHeightPt - pdfMargin * 2 - pdfGutter * ((rowsPerPage p - 1 : Nat) : ℚ) - 30) /
    ((rowsPerPage p : Nat) : ℚ)

/-- Where one panel lands: its page (1-based), its cell rectangle origin, and
the centered, uniformly scaled image rectangle drawn inside the cell. -/
structure PlacedPanel where
  page : Nat
  cellX : ℚ
  cellY : ℚ
  imgX : ℚ
  imgY : ℚ
  imgW : ℚ
  imgH : ℚ
deriving DecidableEq

/-- The per-panel body of the inner loop of `buildComicPdf`: `j` is the index
within the page, `dim` the embedded image's width and height. -/
def placePanel (p : PanelsPerPage) (pageIdx j : Nat) (dim : ℚ × ℚ) : PlacedPanel :=
  let col := j % pdfColumns
  let row := j / pdfColumns
  let x := pdfMargin + (col : ℚ) * (cellWidth + pdfGutter)
  let yTop := pageHeightPt - pdfMargin - (row : ℚ) * (cellHeight p + pdfGutter)
  let y := yTop - cellHeight p
  let scale := min (cellWidth / dim.1) (cellHeight p / dim.2)
  let drawWidth := dim.1 * scale
  let drawHeight := dim.2 * scale
  let dx := x + (cellWidth - drawWidth) / 2
  let dy := y + (cellHeight p - drawHeight) / 2
  ⟨pageIdx, x, y, dx, dy, drawWidth, drawHeight⟩

/-- The page loop of `buildComicPdf` (`for (i = 0; i < n; i += panelsPerPage)`,
`pageIndex++` at the top): chunks of `panelsPerPage` dims per page.  `fuel` is
an upper bound on the number of panels left, making the chunking structural;
`layoutPanels` supplies `dims.length`, which suffices since every iteration
consumes at least one panel (`p.val ≥ 2`). -/
def layoutAux (p : PanelsPerPage) : Nat → Nat → List (ℚ × ℚ) → List PlacedPanel
  | 0, _, _ => []
  | _ + 1, _, [] => []
  | fuel + 1, pageIdx, d :: rest =>
    ((( d :: rest).take p.val).enum.map fun je => placePanel p (pageIdx + 1) je.1 je.2) ++
      layoutAux p fuel (pageIdx + 1) ((d :: rest).drop p.val)

def layoutPanels (p : PanelsPerPage) (dims : List (ℚ × ℚ)) : List PlacedPanel :=
  layoutAux p dims.length 0 dims

/-! ### Panel file names and the PDF assembler's listing (`generatePanelImage`,
`listPanelPngs`) -/

/-- Decimal digits of `n` (the JS `String(i)` conversion), with enough fuel to
be structural (`n + 1` levels always suffice). -/
def decimalAux : Nat → Nat → List Char
  | 0, _ => []
  | fuel + 1, n =>
    if n < 10 then [Nat.digitChar n]
    else decimalAux fuel (n / 10) ++ [Nat.digitChar (n % 10)]

def decimalRepr (n : Nat) : List Char := decimalAux (n + 1) n

/-- `String(i).padStart(3, '0')`. -/
def padStart3 (cs : List Char) : List Char := List.replicate (3 - cs.length) '0' ++ cs

def panelIndexStr (i : Nat) : List Char := padStart3 (decimalRepr i)

/-- `panel-${String(i).padStart(3, '0')}` from `generatePanelImage`. -/
def panelBaseName (i : Nat) : List Char := "panel-".data ++ panelIndexStr i

/-- The final composited image's file name `panel-NNN.png`. -/
def panelFileName (i : Nat) : String := String.mk (panelBaseName i ++ ".png".data)

/-- The pre-bubble sibling `panel-NNN.raw.png`. -/
def rawPanelFileName (i : Nat) : String := String.mk (panelBaseName i ++ ".raw.png".data)

/-- JS `String.prototype.endsWith`. -/
def endsWithStr (s suffixStr : String) : Bool := suffixStr.data.isSuffixOf s.data

/-- The UTF-16 code-unit lexicographic comparison JS `Array.prototype.sort()`
uses by default (code units coincide with codepoints on these ASCII names). -/
def lexLe : List Char → List Char → Bool
  | [], _ => true
  | _ :: _, [] => false
  | a :: as, b :: bs =>
    if a.toNat < b.toNat then true
    else if b.toNat < a.toNat then false
    else lexLe as bs

def fileLe (a b : String) : Prop := lexLe a.data b.data = true

instance fileLe.decRel : DecidableRel fileLe := fun a b =>
  inferInstanceAs (Decidable (lexLe a.data b.data = true))

/-- `listPanelPngs` from comic-pipeline.ts: keep `.png` entries that are not
`.raw.png`, sort lexicographically.  JS `.sort()` produces the sorted
permutation of the input (unique here because the comparator is total,
transitive and antisymmetric on distinct names), which insertion sort also
produces.  The final `map` to `panelsDir`-prefixed paths prepends a common
prefix to every name and is dropped as order-irrelevant. -/
def listPanelPngs (entries : List String) : List String :=
  List.insertionSort fileLe
    (entries.filter fun f => endsWithStr f ".png" && !endsWithStr f ".raw.png")

/-! #### Tokenizer lemmas -/

theorem splitWsAux_all_not_ws :
    ∀ (cs acc : List Char), (∀ c ∈ acc, ¬c.isWhitespace) →
      ∀ t ∈ splitWsAux cs acc, ∀ c ∈ t, ¬c.isWhitespace := by
  intro cs
  induction cs with
  | nil =>
    intro acc hacc t ht
    simp only [splitWsAux] at ht
    split at ht
    · simp at ht
    · simp only [List.mem_singleton] at ht
      subst ht
      intro c hc
      exact hacc c (List.mem_reverse.mp hc)
  | cons c cs ih =>
    intro acc hacc t ht
    simp only [splitWsAux] at ht
    by_cases hws : c.isWhitespace
    · simp only [hws, if_true] at ht
      split at ht
      · exact ih [] (by simp) t ht
      · rcases List.mem_cons.mp ht with h | h
        · subst h
          intro d hd
          exact hacc d (List.mem_reverse.mp hd)
        · exact ih [] (by simp) t h
    · simp only [hws, if_false] at ht
      refine ih (c :: acc) ?_ t ht
      intro d hd
      rcases List.mem_cons.mp hd with h | h
      · subst h; exact hws
      · exact hacc d h

theorem splitWs_all_not_ws (cs : List Char) :
    ∀ t ∈ splitWs cs, ∀ c ∈ t, ¬c.isWhitespace :=
  splitWsAux_all_not_ws cs [] (by simp)

theorem splitWsAux_all_ne_nil :
    ∀ (cs acc : List Char), ∀ t ∈ splitWsAux cs acc, t ≠ [] := by
  intro cs
  induction cs with
  | nil =>
    intro acc t ht
    simp only [splitWsAux] at ht
    split at ht
    · simp at ht
    · rename_i hacc
      simp only [List.mem_singleton] at ht
      subst ht
      simpa [List.isEmpty_iff] using hacc
  | cons c cs ih =>
    intro acc t ht
    simp only [splitWsAux] at ht
    by_cases hws : c.isWhitespace
    · simp only [hws, if_true] at ht
      split at ht
      · exact ih [] t ht
      · rename_i hacc
        rcases List.mem_cons.mp ht with h | h
        · subst h
          simpa [List.isEmpty_iff] using hacc
        · exact ih [] t h
    · simp only [hws, if_false] at ht
      exact ih (c :: acc) t ht

theorem splitWs_all_ne_nil (cs : List Char) : ∀ t ∈ splitWs cs, t ≠ [] :=
  splitWsAux_all_ne_nil cs []

theorem splitWsAux_acc_ne_nil :
    ∀ (cs acc : List Char), acc ≠ [] → splitWsAux cs acc ≠ [] := by
  intro cs
  induction cs with
  | nil =>
    intro acc hacc
    simp [splitWsAux, List.isEmpty_iff, hacc]
  | cons c cs ih =>
    intro acc hacc
    simp only [splitWsAux]
    by_cases hws : c.isWhitespace
    · simp only [hws, if_true, List.isEmpty_iff, hacc, if_false]
      simp
    · simp only [hws, if_false]
      exact ih (c :: acc) (by simp)

theorem splitWsAux_ne_nil_of_has_not_ws :
    ∀ (cs acc : List Char), (∃ d ∈ cs, ¬d.isWhitespace) → splitWsAux cs acc ≠ [] := by
  intro cs
  induction cs with
  | nil => intro acc h; simp at h
  | cons c cs ih =>
    intro acc h
    simp only [splitWsAux]
    by_cases hws : c.isWhitespace
    · have hcs : ∃ d ∈ cs, ¬d.isWhitespace := by
        obtain ⟨d, hd, hdws⟩ := h
        rcases List.mem_cons.mp hd with rfl | hmem
        · exact absurd hws hdws
        · exact ⟨d, hmem, hdws⟩
      simp only [hws, if_true]
      split
      · exact ih [] hcs
      · simp
    · simp only [hws, if_false]
      exact splitWsAux_acc_ne_nil cs (c :: acc) (by simp)

/-- Splitting distributes over an explicit whitespace separator. -/
theorem splitWsAux_append_of_ws {c : Char} (hc : c.isWhitespace) (ys : List Char) :
    ∀ (xs acc : List Char),
      splitWsAux (xs ++ c :: ys) acc = splitWsAux xs acc ++ splitWs ys := by
  intro xs
  induction xs with
  | nil =>
    intro acc
    simp only [List.nil_append, splitWsAux, hc, if_true, splitWs]
    split
    · simp
    · simp
  | cons x xs ih =>
    intro acc
    simp only [List.cons_append, splitWsAux]
    by_cases hx : x.isWhitespace
    · simp only [hx, if_true]
      split
      · exact ih []
      · simp only [List.append_eq] at *
        rw [ih []]; simp
    · simp only [hx, if_false]
      exact ih (x :: acc)

theorem splitWs_append_of_ws {c : Char} (hc : c.isWhitespace) (xs ys : List Char) :
    splitWs (xs ++ c :: ys) = splitWs xs ++ splitWs ys :=
  splitWsAux_append_of_ws hc ys xs []

/-- A nonempty whitespace-free run is a single token. -/
theorem splitWsAux_single :
    ∀ (w acc : List Char), w ≠ [] → (∀ c ∈ w, ¬c.isWhitespace) →
      splitWsAux w acc = [acc.reverse ++ w] := by
  intro w
  induction w with
  | nil => intro acc h; exact absurd rfl h
  | cons c cs ih =>
    intro acc _ hws
    have hc : ¬c.isWhitespace := hws c (by simp)
    simp only [splitWsAux, hc, if_false]
    rcases List.eq_nil_or_concat cs with rfl | _
    · simp [splitWsAux]
    · rcases cs with _ | ⟨d, ds⟩
      · simp [splitWsAux]
      · rw [ih (c :: acc) (by simp) (fun x hx => hws x (List.mem_cons_of_mem c hx))]
        simp

theorem splitWs_single (w : List Char) (hne : w ≠ [])
    (hws : ∀ c ∈ w, ¬c.isWhitespace) : splitWs w = [w] := by
  simpa using splitWsAux_single w [] hne hws

/-- An all-whitespace run just flushes the accumulator. -/
theorem splitWsAux_all_ws :
    ∀ (t acc : List Char), (∀ c ∈ t, c.isWhitespace) →
      splitWsAux t acc = if acc.isEmpty then [] else [acc.reverse] := by
  intro t
  induction t with
  | nil => intro acc _; rfl
  | cons c cs ih =>
    intro acc h
    have hc : c.isWhitespace := h c (by simp)
    simp only [splitWsAux, hc, if_true]
    have hcs : ∀ d ∈ cs, d.isWhitespace := fun d hd => h d (List.mem_cons_of_mem c hd)
    split
    · rw [ih [] hcs]; simp
    · rw [ih [] hcs]; simp

/-- Trailing whitespace does not affect the tokens. -/
theorem splitWsAux_append_all_ws (t : List Char) (ht : ∀ c ∈ t, c.isWhitespace) :
    ∀ (xs acc : List Char), splitWsAux (xs ++ t) acc = splitWsAux xs acc := by
  intro xs
  induction xs with
  | nil =>
    intro acc
    rw [List.nil_append, splitWsAux_all_ws t acc ht]
    rfl
  | cons x xs ih =>
    intro acc
    simp only [List.cons_append, splitWsAux]
    by_cases hx : x.isWhitespace
    · simp only [hx, if_true]
      split
      · exact ih []
      · simp only [List.append_eq] at *
        rw [ih []]
    · simp only [hx, if_false]
      exact ih (x :: acc)

/-- Leading whitespace does not affect the tokens. -/
theorem splitWsAux_ws_prepend (p : List Char) (hp : ∀ c ∈ p, c.isWhitespace)
    (xs : List Char) : splitWsAux (p ++ xs) [] = splitWsAux xs [] := by
  induction p with
  | nil => rfl
  | cons c cs ih =>
    have hc : c.isWhitespace := hp c (by simp)
    simp only [List.cons_append, splitWsAux, hc, if_true, List.isEmpty_nil]
    exact ih fun d hd => hp d (List.mem_cons_of_mem c hd)

/-- Trimming does not affect the tokens. -/
theorem splitWs_trimL (cs : List Char) : splitWs (trimL cs) = splitWs cs := by
  unfold splitWs trimL
  have h1 : cs = cs.takeWhile Char.isWhitespace ++ cs.dropWhile Char.isWhitespace :=
    (List.takeWhile_append_dropWhile (p := Char.isWhitespace) (l := cs)).symm
  set d := cs.dropWhile Char.isWhitespace with hd
  have h3 : d.reverse.takeWhile Char.isWhitespace ++ d.reverse.dropWhile Char.isWhitespace
      = d.reverse :=
    List.takeWhile_append_dropWhile (p := Char.isWhitespace) (l := d.reverse)
  have h2 : d = (d.reverse.dropWhile Char.isWhitespace).reverse ++
      (d.reverse.takeWhile Char.isWhitespace).reverse := by
    calc d = d.reverse.reverse := (List.reverse_reverse d).symm
      _ = (d.reverse.takeWhile Char.isWhitespace ++
            d.reverse.dropWhile Char.isWhitespace).reverse := by rw [h3]
      _ = (d.reverse.dropWhile Char.isWhitespace).reverse ++
            (d.reverse.takeWhile Char.isWhitespace).reverse := List.reverse_append ..
  calc splitWsAux ((d.reverse.dropWhile Char.isWhitespace).reverse) []
      = splitWsAux ((d.reverse.dropWhile Char.isWhitespace).reverse ++
          (d.reverse.takeWhile Char.isWhitespace).reverse) [] := by
        rw [splitWsAux_append_all_ws]
        intro c hc
        have := List.mem_takeWhile_imp (List.mem_reverse.mp hc)
        simpa using this
    _ = splitWsAux d [] := by rw [← h2]
    _ = splitWsAux (cs.takeWhile Char.isWhitespace ++ d) [] := by
        rw [splitWsAux_ws_prepend]
        intro c hc
        simpa using List.mem_takeWhile_imp hc
    _ = splitWsAux cs [] := by rw [← h1]

theorem joinSp_cons (x : List Char) {l : List (List Char)} (h : l ≠ []) :
    joinSp (x :: l) = x ++ ' ' :: joinSp l := by
  cases l with
  | nil => exact absurd rfl h
  | cons y ys => rfl

theorem trimL_head_not_ws (cs : List Char) :
    ∀ c, (trimL cs).head? = some c → ¬c.isWhitespace := by
  intro c hc
  unfold trimL at hc
  rw [List.head?_reverse] at hc
  set Y := (cs.dropWhile Char.isWhitespace).reverse.dropWhile Char.isWhitespace with hY
  have hYne : Y ≠ [] := by
    intro h
    rw [h] at hc
    simp at hc
  obtain ⟨u, hu⟩ := List.dropWhile_suffix (l := (cs.dropWhile Char.isWhitespace).reverse)
    Char.isWhitespace
  have hlast : ((cs.dropWhile Char.isWhitespace).reverse).getLast? = some c := by
    rw [← hu, List.getLast?_append, hc]
    rfl
  rw [List.getLast?_reverse] at hlast
  have := List.head?_dropWhile_not Char.isWhitespace cs
  rw [hlast] at this
  simp only at this
  simp [this]

theorem trimL_getLast_not_ws (cs : List Char) :
    ∀ c, (trimL cs).getLast? = some c → ¬c.isWhitespace := by
  intro c hc
  unfold trimL at hc
  rw [List.getLast?_reverse] at hc
  have := List.head?_dropWhile_not Char.isWhitespace (cs.dropWhile Char.isWhitespace).reverse
  rw [hc] at this
  simp only at this
  simp [this]

/-- Core relation between whitespace collapsing and tokenizing: on text with
no trailing whitespace, `replace(/\s+/g, ' ')` equals the single-space join of
the tokens. -/
theorem collapse_join_aux :
    ∀ t : List Char, (∀ c, t.getLast? = some c → ¬c.isWhitespace) →
      (∀ acc : List Char, acc ≠ [] →
        joinSp (splitWsAux t acc) = acc.reverse ++ collapseWsAux false t) ∧
      ((∃ d ∈ t, ¬d.isWhitespace) →
        joinSp (splitWsAux t []) = collapseWsAux true t) := by
  intro t
  induction t with
  | nil =>
    intro _
    constructor
    · intro acc hacc
      simp [splitWsAux, List.isEmpty_iff, hacc, joinSp, collapseWsAux]
    · intro h
      simp at h
  | cons c cs ih =>
    intro hlast
    by_cases hws : c.isWhitespace
    · -- the head char is whitespace: it starts (or continues) a run
      have hcs_ne : cs ≠ [] := by
        intro h
        subst h
        exact (hlast c rfl) hws
      have hlast_cs : ∀ d, cs.getLast? = some d → ¬d.isWhitespace := by
        intro d hd
        refine hlast d ?_
        cases cs with
        | nil => exact absurd rfl hcs_ne
        | cons e es => rw [List.getLast?_cons_cons]; exact hd
      have hhas : ∃ d ∈ cs, ¬d.isWhitespace := by
        cases cs with
        | nil => exact absurd rfl hcs_ne
        | cons e es =>
          have hne : (e :: es) ≠ [] := List.cons_ne_nil e es
          refine ⟨(e :: es).getLast hne, List.getLast_mem hne, ?_⟩
          apply hlast_cs
          rw [List.getLast?_eq_getLast (e :: es) hne]
      obtain ⟨ih1, ih2⟩ := ih hlast_cs
      have hsplit_ne : splitWsAux cs [] ≠ [] := splitWsAux_ne_nil_of_has_not_ws cs [] hhas
      constructor
      · intro acc hacc
        simp only [splitWsAux, hws, if_true, List.isEmpty_iff, hacc, if_false,
          collapseWsAux, Bool.false_eq_true]
        rw [joinSp_cons _ hsplit_ne, ih2 hhas]
      · intro _
        simp only [splitWsAux, hws, if_true, List.isEmpty_nil, collapseWsAux]
        exact ih2 hhas
    · -- the head char starts/extends a token
      have hlast_cs : ∀ d, cs.getLast? = some d → ¬d.isWhitespace := by
        intro d hd
        refine hlast d ?_
        cases cs with
        | nil => simp at hd
        | cons e es => rw [List.getLast?_cons_cons]; exact hd
      obtain ⟨ih1, ih2⟩ := ih hlast_cs
      constructor
      · intro acc hacc
        simp only [splitWsAux, hws, Bool.false_eq_true, if_false, List.isEmpty_iff, hacc,
          collapseWsAux]
        by_cases hcs : cs = []
        · subst hcs
          simp [splitWsAux, joinSp, collapseWsAux]
        · by_cases hall : ∃ d ∈ cs, ¬d.isWhitespace
          · rw [ih1 (c :: acc) (by simp)]
            simp
          · -- all of cs is whitespace, but cs has a non-ws last char unless empty
            exfalso
            push_neg at hall
            cases cs with
            | nil => exact hcs rfl
            | cons e es =>
              obtain hne := List.cons_ne_nil e es
              have hmem : (e :: es).getLast hne ∈ e :: es := List.getLast_mem hne
              have h1 : ¬((e :: es).getLast hne).isWhitespace := by
                apply hlast_cs
                exact (List.getLast?_eq_getLast (e :: es) hne) ▸ rfl
              exact h1 (hall _ hmem)
      · intro _
        simp only [splitWsAux, hws, Bool.false_eq_true, if_false, List.isEmpty_nil,
          collapseWsAux]
        by_cases hcs : cs = []
        · subst hcs
          simp [splitWsAux, joinSp, collapseWsAux]
        · rw [ih1 [c] (by simp)]
          simp

/-- `cleanText` produces exactly the single-space join of the whitespace
tokens: it trims and collapses every whitespace run to one space. -/
theorem cleanText_data_eq (s : String) : (cleanText s).data = joinSp (splitWs s.data) := by
  have h0 : (cleanText s).data = collapseWsAux false (trimL s.data) := rfl
  rw [h0, ← splitWs_trimL]
  cases ht : trimL s.data with
  | nil => simp [splitWs, splitWsAux, joinSp, collapseWsAux]
  | cons c cs =>
    have hc : ¬c.isWhitespace := by
      apply trimL_head_not_ws s.data
      rw [ht]
      rfl
    have hlast_cs : ∀ d, cs.getLast? = some d → ¬d.isWhitespace := by
      intro d hd
      apply trimL_getLast_not_ws s.data
      rw [ht]
      cases cs with
      | nil => simp at hd
      | cons e es => rw [List.getLast?_cons_cons]; exact hd
    have hsplit : splitWs (c :: cs) = splitWsAux cs [c] := by
      simp [splitWs, splitWsAux, hc]
    rw [hsplit, (collapse_join_aux cs hlast_cs).1 [c] (by simp)]
    simp [collapseWsAux, hc]

/-- `countWords` counts exactly the whitespace-separated tokens. -/
theorem countWords_eq_tokens (s : String) : countWords s = (splitWs s.data).length := by
  unfold countWords
  by_cases h : (trimL s.data).isEmpty
  · rw [if_pos h, ← splitWs_trimL]
    rw [List.isEmpty_iff] at h
    rw [h]
    rfl
  · rw [if_neg h, splitWs_trimL]

/-! #### Dialogue-wrapping lemmas -/

/-- Every line the packing loop emits is either within the budget or is one of
the candidate words (tracked by `S`). -/
theorem wrapWordsAux_line_mem (max : Nat) (S : List (List Char)) :
    ∀ (ws : List (List Char)) (current : List Char),
      (∀ w ∈ ws, w ∈ S) → (current.length ≤ max ∨ current ∈ S) →
      ∀ l ∈ wrapWordsAux max current ws, l.length ≤ max ∨ l ∈ S := by
  intro ws
  induction ws with
  | nil =>
    intro current _ hcur l hl
    simp only [wrapWordsAux] at hl
    split at hl
    · simp at hl
    · simp only [List.mem_singleton] at hl
      subst hl
      exact hcur
  | cons w ws ih =>
    intro current hws hcur l hl
    have hws' : ∀ u ∈ ws, u ∈ S := fun u hu => hws u (List.mem_cons_of_mem w hu)
    have hwS : w ∈ S := hws w (List.mem_cons_self w ws)
    by_cases hcur0 : current.isEmpty
    · simp only [wrapWordsAux, hcur0, if_true, ite_self] at hl
      exact ih w hws' (Or.inr hwS) l hl
    · simp only [wrapWordsAux, hcur0, Bool.false_eq_true, if_false] at hl
      by_cases hfit : (current ++ ' ' :: w).length ≤ max
      · rw [if_pos hfit] at hl
        exact ih _ hws' (Or.inl hfit) l hl
      · rw [if_neg hfit] at hl
        rcases List.mem_cons.mp hl with h | h
        · subst h
          exact hcur
        · exact ih _ hws' (Or.inr hwS) l h

/-- Re-splitting the emitted lines recovers exactly the words the loop was
given (every word lands on some line, in the given order). -/
theorem wrapWordsAux_flatMap (max : Nat) :
    ∀ (ws : List (List Char)) (current : List Char),
      (∀ w ∈ ws, w ≠ [] ∧ ∀ c ∈ w, ¬c.isWhitespace) →
      ((wrapWordsAux max current ws).flatMap splitWs) = splitWs current ++ ws := by
  intro ws
  induction ws with
  | nil =>
    intro current _
    simp only [wrapWordsAux]
    split
    · rename_i h
      rw [List.isEmpty_iff] at h
      subst h
      rfl
    · simp
  | cons w ws ih =>
    intro current hws
    obtain ⟨hwne, hwns⟩ := hws w (List.mem_cons_self w ws)
    have hws' : ∀ u ∈ ws, u ≠ [] ∧ ∀ c ∈ u, ¬c.isWhitespace :=
      fun u hu => hws u (List.mem_cons_of_mem w hu)
    have hsp : (' ' : Char).isWhitespace = true := rfl
    by_cases hcur0 : current.isEmpty
    · rw [List.isEmpty_iff] at hcur0
      subst hcur0
      simp only [wrapWordsAux, List.isEmpty_nil, if_true, ite_self]
      rw [ih w hws', splitWs_single w hwne hwns]
      simp [splitWs, splitWsAux]
    · simp only [wrapWordsAux, hcur0, Bool.false_eq_true, if_false]
      by_cases hfit : (current ++ ' ' :: w).length ≤ max
      · rw [if_pos hfit, ih _ hws', splitWs_append_of_ws hsp current w,
          splitWs_single w hwne hwns]
        simp
      · rw [if_neg hfit, List.flatMap_cons, ih _ hws', splitWs_single w hwne hwns]
        simp

/-- The packing loop emits at least one line when it has a word or a pending
current line. -/
theorem wrapWordsAux_ne_nil (max : Nat) :
    ∀ (ws : List (List Char)) (current : List Char),
      (∀ w ∈ ws, w ≠ []) → (current ≠ [] ∨ ws ≠ []) →
      wrapWordsAux max current ws ≠ [] := by
  intro ws
  induction ws with
  | nil =>
    intro current _ hne
    have hcur : current ≠ [] := by
      rcases hne with h | h
      · exact h
      · exact absurd rfl h
    simp only [wrapWordsAux, List.isEmpty_iff, hcur, if_false]
    simp
  | cons w ws ih =>
    intro current hws _
    have hwne : w ≠ [] := hws w (List.mem_cons_self w ws)
    have hws' : ∀ u ∈ ws, u ≠ [] := fun u hu => hws u (List.mem_cons_of_mem w hu)
    by_cases hcur0 : current.isEmpty
    · simp only [wrapWordsAux, hcur0, if_true, ite_self]
      exact ih w hws' (Or.inl hwne)
    · simp only [wrapWordsAux, hcur0, Bool.false_eq_true, if_false]
      by_cases hfit : (current ++ ' ' :: w).length ≤ max
      · rw [if_pos hfit]
        exact ih _ hws' (Or.inl (by simp))
      · rw [if_neg hfit]
        simp

/-- C3: with the fixed 22-character budget, `wrapDialogue` returns at most 4
lines; every returned line is within 22 characters unless it is a single
whitespace-free input word longer than 22 characters, kept unbroken on its own
line; and the words of the returned lines are, in order, a prefix of the
input's whitespace-separated words (words beyond the 4-line cap are silently
dropped). -/
theorem comic_C3_wrapDialogue (text : String) :
    (wrapDialogue text 22).length ≤ 4 ∧
    (∀ l ∈ wrapDialogue text 22,
      l.length ≤ 22 ∨
        (22 < l.length ∧ l.data ∈ splitWs text.data ∧ ∀ c ∈ l.data, ¬c.isWhitespace)) ∧
    (∃ k, ((wrapDialogue text 22).flatMap fun l => splitWs l.data) =
        (splitWs text.data).take k) := by
  by_cases hw : (splitWs text.data).isEmpty
  · simp only [wrapDialogue, hw, if_true]
    refine ⟨by simp, ?_, 0, ?_⟩
    · intro l hl
      simp only [List.mem_singleton] at hl
      subst hl
      left
      simp
    · simp [splitWs, splitWsAux]
  · simp only [wrapDialogue, hw, Bool.false_eq_true, if_false]
    refine ⟨List.length_take_le 4 _, ?_, ?_⟩
    · intro l hl
      have hl' := List.mem_of_mem_take hl
      obtain ⟨lc, hlc, rfl⟩ := List.mem_map.mp hl'
      have hmem := wrapWordsAux_line_mem 22 (splitWs text.data) (splitWs text.data) []
        (fun _ h => h) (Or.inl (by simp)) lc hlc
      have hlen : (String.mk lc).length = lc.length := rfl
      by_cases h22 : (String.mk lc).length ≤ 22
      · exact Or.inl h22
      · refine Or.inr ⟨by omega, ?_, ?_⟩
        · rcases hmem with h | h
          · exact absurd (hlen ▸ h) h22
          · exact h
        · rcases hmem with h | h
          · exact absurd (hlen ▸ h) h22
          · exact splitWs_all_not_ws text.data lc h
    · have hzw : ∀ w ∈ splitWs text.data, w ≠ [] ∧ ∀ c ∈ w, ¬c.isWhitespace :=
        fun w h => ⟨splitWs_all_ne_nil text.data w h, splitWs_all_not_ws text.data w h⟩
      have hfull : (wrapWordsAux 22 [] (splitWs text.data)).flatMap splitWs
          = splitWs text.data := by
        rw [wrapWordsAux_flatMap 22 (splitWs text.data) [] hzw]
        rfl
      set lines0 := wrapWordsAux 22 [] (splitWs text.data) with hlines0
      have hmap : ((lines0.map String.mk).take 4).flatMap (fun l => splitWs l.data)
          = (lines0.take 4).flatMap splitWs := by
        rw [← List.map_take]
        rw [List.flatMap_map]
      have hsplitall : (lines0.take 4).flatMap splitWs ++ (lines0.drop 4).flatMap splitWs
          = splitWs text.data := by
        rw [← List.flatMap_append, List.take_append_drop, hfull]
      refine ⟨((lines0.take 4).flatMap splitWs).length, ?_⟩
      rw [hmap, ← hsplitall, List.take_left]

/-- C10: `wrapDialogue` never returns an empty list; on empty or
whitespace-only dialogue it returns exactly one line, the empty string. -/
theorem comic_C10_wrapDialogue_ne_nil (text : String) :
    wrapDialogue text 22 ≠ [] ∧
    ((∀ c ∈ text.data, c.isWhitespace) → wrapDialogue text 22 = [""]) := by
  by_cases hw : (splitWs text.data).isEmpty
  · simp only [wrapDialogue, hw, if_true]
    exact ⟨by simp, fun _ => by simp⟩
  · simp only [wrapDialogue, hw, Bool.false_eq_true, if_false]
    constructor
    · have hne : wrapWordsAux 22 [] (splitWs text.data) ≠ [] := by
        apply wrapWordsAux_ne_nil 22 (splitWs text.data) []
          (splitWs_all_ne_nil text.data)
        right
        intro h
        rw [h] at hw
        exact hw rfl
      cases he : wrapWordsAux 22 [] (splitWs text.data) with
      | nil => exact absurd he hne
      | cons a l => simp
    · intro hall
      exfalso
      apply hw
      have : splitWs text.data = [] := by
        unfold splitWs
        rw [splitWsAux_all_ws text.data [] hall]
        rfl
      rw [this]
      rfl

theorem comic_C3_witness :
    wrapDialogue "abcdefghijklmnopqrstuvwxyz ab" 22 = ["abcdefghijklmnopqrstuvwxyz", "ab"] ∧
    (wrapDialogue "abcdefghijklmnopqrstuvwxyz ab" 22).length ≤ 4 :=
  ⟨by decide, (comic_C3_wrapDialogue "abcdefghijklmnopqrstuvwxyz ab").1⟩

theorem comic_C10_witness :
    wrapDialogue "   " 22 = [""] ∧ wrapDialogue "x" 22 ≠ [] :=
  ⟨(comic_C10_wrapDialogue_ne_nil "   ").2 (by decide),
   (comic_C10_wrapDialogue_ne_nil "x").1⟩

/-! #### Script-generator lemmas (C1) -/

theorem trimL_idem (cs : List Char) : trimL (trimL cs) = trimL cs := by
  have hstep : ∀ t : List Char, (∀ c, t.head? = some c → ¬c.isWhitespace) →
      t.dropWhile Char.isWhitespace = t := by
    intro t ht
    cases t with
    | nil => rfl
    | cons c cs' =>
      rw [List.dropWhile_cons, if_neg]
      simp only [Bool.not_eq_true]
      have := ht c rfl
      simpa using this
  show ((((trimL cs).dropWhile Char.isWhitespace).reverse.dropWhile Char.isWhitespace).reverse) = trimL cs
  rw [hstep (trimL cs) (trimL_head_not_ws cs)]
  rw [hstep (trimL cs).reverse]
  · exact List.reverse_reverse _
  · intro c hc
    rw [List.head?_reverse] at hc
    exact trimL_getLast_not_ws cs c hc

theorem trimS_idem (s : String) : trimS (trimS s) = trimS s := by
  unfold trimS
  rw [show (String.mk (trimL s.data)).data = trimL s.data from rfl, trimL_idem]

/-- C1 (amended): the script generator either returns exactly `panelCount`
scenes — scenes missing a string `visual` or `dialogue_telugu` dropped, the
list truncated to at most `panelCount` before validation, `visual` and
`dialogue_telugu` trimmed, the optional `title` kept verbatim — or fails with
an error naming both the obtained count and the requested count; it never
returns a list whose length differs from `panelCount`. -/
theorem comic_C1_generateScriptScenes (sceneVals : List JValue) (panelCount : Nat) :
    ((sceneVals.filter sceneHasFields).take panelCount).length ≤ panelCount ∧
    (((sceneVals.filter sceneHasFields).take panelCount).length = panelCount →
      generateScriptScenes sceneVals panelCount =
        .ok (((sceneVals.filter sceneHasFields).take panelCount).map toScene)) ∧
    (((sceneVals.filter sceneHasFields).take panelCount).length ≠ panelCount →
      generateScriptScenes sceneVals panelCount =
        .error (sceneCountMismatchMsg
          ((sceneVals.filter sceneHasFields).take panelCount).length panelCount)) ∧
    (∀ l, generateScriptScenes sceneVals panelCount = .ok l →
      l.length = panelCount ∧
      l = ((sceneVals.filter sceneHasFields).take panelCount).map toScene ∧
      ∀ s ∈ l, trimS s.visual = s.visual ∧ trimS s.dialogue_telugu = s.dialogue_telugu) := by
  set kept := (sceneVals.filter sceneHasFields).take panelCount with hkept
  have hlenmap : (kept.map toScene).length = kept.length := List.length_map _ _
  have hb1 : kept.length = panelCount →
      generateScriptScenes sceneVals panelCount = .ok (kept.map toScene) := by
    intro hlen
    unfold generateScriptScenes
    rw [← hkept, if_neg]
    omega
  have hb2 : kept.length ≠ panelCount →
      generateScriptScenes sceneVals panelCount =
        .error (sceneCountMismatchMsg kept.length panelCount) := by
    intro hlen
    unfold generateScriptScenes
    rw [← hkept, if_pos]
    · rw [hlenmap]
    · omega
  refine ⟨List.length_take_le panelCount _, hb1, hb2, ?_⟩
  intro l hl
  by_cases hlen : kept.length = panelCount
  · rw [hb1 hlen] at hl
    simp only [Except.ok.injEq] at hl
    subst hl
    refine ⟨by omega, rfl, ?_⟩
    intro s hs
    obtain ⟨v, _, rfl⟩ := List.mem_map.mp hs
    unfold toScene
    exact ⟨trimS_idem _, trimS_idem _⟩
  · rw [hb2 hlen] at hl
    exact absurd hl (by simp)

/-- C1 counterexample: the claim says all string fields are trimmed, but the
optional `title` field is kept verbatim — a scene with title `" x "` survives
with its whitespace intact. -/
theorem comic_C1_title_not_trimmed :
    generateScriptScenes
      [JValue.obj [("title", JValue.str " x "), ("visual", JValue.str "v"),
        ("dialogue_telugu", JValue.str "d")]] 1 =
      .ok [{ title := some " x ", visual := "v", dialogue_telugu := "d" }] ∧
    trimS " x " ≠ " x " := by
  constructor
  · rfl
  · decide

theorem comic_C1_witness :
    ((([JValue.obj [("visual", JValue.str " v "), ("dialogue_telugu", JValue.str "d")],
        JValue.str "junk"].filter sceneHasFields).take 1).length = 1) ∧
    generateScriptScenes
      [JValue.obj [("visual", JValue.str " v "), ("dialogue_telugu", JValue.str "d")],
        JValue.str "junk"] 1 =
      .ok [{ title := none, visual := "v", dialogue_telugu := "d" }] := by
  constructor
  · rfl
  · have h := (comic_C1_generateScriptScenes
      [JValue.obj [("visual", JValue.str " v "), ("dialogue_telugu", JValue.str "d")],
        JValue.str "junk"] 1).2.1 (by rfl)
    rw [h]
    rfl

/-- C7 (amended): URL normalization maps a non-empty bare string to itself, an
array whose first element is a string to that element, an object with a string
`url` field to that url, and an object whose `output` field is an array headed
by a string to that head; a URL is extracted only in those cases, and whenever
no URL is extracted the panel generator fails with the explicit no-image-URL
error; in particular the object with `output` array around
"http://x/y.png" yields that URL without error.  (The empty bare string is
falsy in JS and yields no URL — see the counterexample.) -/
theorem comic_C7_normalizeReplicateOutputUrl (v : JValue) :
    (∀ s, v = .str s → s ≠ "" → normalizeReplicateOutputUrl v = some s) ∧
    (∀ s rest, v = .arr (.str s :: rest) → normalizeReplicateOutputUrl v = some s) ∧
    (∀ fields s, v = .obj fields → asStr (lookupField v "url") = some s →
      normalizeReplicateOutputUrl v = some s) ∧
    (∀ fields s rest, v = .obj fields → asStr (lookupField v "url") = none →
      lookupField v "output" = some (.arr (.str s :: rest)) →
      normalizeReplicateOutputUrl v = some s) ∧
    (∀ u, normalizeReplicateOutputUrl v = some u →
      (v = .str u ∧ u ≠ "") ∨
      (∃ rest, v = .arr (.str u :: rest)) ∨
      (∃ fields, v = .obj fields ∧
        (asStr (lookupField v "url") = some u ∨
          ∃ rest, lookupField v "output" = some (.arr (.str u :: rest))))) ∧
    (normalizeReplicateOutputUrl v = none →
      panelImageUrl v = .error "Replicate returned no image URL") ∧
    normalizeReplicateOutputUrl (.obj [("output", .arr [.str "http://x/y.png"])]) =
      some "http://x/y.png" := by
  refine ⟨?_, ?_, ?_, ?_, ?_, ?_, rfl⟩
  · rintro s rfl hs
    have he : s.isEmpty = false := by
      rcases Bool.eq_false_or_eq_true s.isEmpty with h | h
      · exact absurd ((String.isEmpty_iff s).mp h) hs
      · exact h
    simp [normalizeReplicateOutputUrl, jsFalsy, he]
  · rintro s rest rfl
    simp [normalizeReplicateOutputUrl, jsFalsy]
  · rintro fields s rfl hurl
    simp only [normalizeReplicateOutputUrl, jsFalsy, Bool.false_eq_true, if_false]
    rw [hurl]
  · rintro fields s rest rfl hurl hout
    simp only [normalizeReplicateOutputUrl, jsFalsy, Bool.false_eq_true, if_false]
    rw [hurl, hout]
  · intro u hu
    cases v with
    | str s =>
      by_cases hs : s.isEmpty
      · simp [normalizeReplicateOutputUrl, jsFalsy, hs] at hu
      · simp only [normalizeReplicateOutputUrl, jsFalsy, hs, Bool.false_eq_true,
          if_false, Option.some.injEq] at hu
        subst hu
        exact Or.inl ⟨rfl, fun h => hs (by rw [h]; rfl)⟩
    | num n =>
      by_cases hn : (n == 0) = true
      · simp [normalizeReplicateOutputUrl, jsFalsy, hn] at hu
      · simp [normalizeReplicateOutputUrl, jsFalsy, hn, lookupField, asStr] at hu
    | bool b =>
      cases b
      · simp [normalizeReplicateOutputUrl, jsFalsy] at hu
      · simp [normalizeReplicateOutputUrl, jsFalsy, lookupField, asStr] at hu
    | null => simp [normalizeReplicateOutputUrl, jsFalsy] at hu
    | arr elems =>
      cases elems with
      | nil => simp [normalizeReplicateOutputUrl, jsFalsy, lookupField, asStr] at hu
      | cons e es =>
        cases e with
        | str s =>
          simp only [normalizeReplicateOutputUrl, jsFalsy, Bool.false_eq_true, if_false,
            Option.some.injEq] at hu
          subst hu
          exact Or.inr (Or.inl ⟨es, rfl⟩)
        | num n => simp [normalizeReplicateOutputUrl, jsFalsy, lookupField, asStr] at hu
        | bool b => simp [normalizeReplicateOutputUrl, jsFalsy, lookupField, asStr] at hu
        | null => simp [normalizeReplicateOutputUrl, jsFalsy, lookupField, asStr] at hu
        | arr es2 => simp [normalizeReplicateOutputUrl, jsFalsy, lookupField, asStr] at hu
        | obj fs2 => simp [normalizeReplicateOutputUrl, jsFalsy, lookupField, asStr] at hu
    | obj fields =>
      refine Or.inr (Or.inr ⟨fields, rfl, ?_⟩)
      simp only [normalizeReplicateOutputUrl, jsFalsy, Bool.false_eq_true, if_false] at hu
      cases hurl : asStr (lookupField (JValue.obj fields) "url") with
      | some s =>
        rw [hurl] at hu
        exact Or.inl hu
      | none =>
        rw [hurl] at hu
        right
        cases hout : lookupField (JValue.obj fields) "output" with
        | none => rw [hout] at hu; simp at hu
        | some w =>
          rw [hout] at hu
          cases w with
          | arr es =>
            cases es with
            | nil => simp at hu
            | cons e es' =>
              cases e with
              | str s =>
                simp only [Option.some.injEq] at hu
                subst hu
                exact ⟨es', rfl⟩
              | num n => simp at hu
              | bool b => simp at hu
              | null => simp at hu
              | arr a2 => simp at hu
              | obj f2 => simp at hu
          | str s => simp at hu
          | num n => simp at hu
          | bool b => simp at hu
          | null => simp at hu
          | obj f2 => simp at hu
  · intro hn
    unfold panelImageUrl
    rw [hn]

theorem comic_C7_counterexample :
    normalizeReplicateOutputUrl (JValue.str "") = none ∧
    normalizeReplicateOutputUrl (JValue.str "") ≠ some "" := by
  exact ⟨rfl, by decide⟩

theorem comic_C7_witness :
    normalizeReplicateOutputUrl (JValue.arr [JValue.str "http://a/b.png", JValue.null]) =
      some "http://a/b.png" :=
  (comic_C7_normalizeReplicateOutputUrl
    (JValue.arr [JValue.str "http://a/b.png", JValue.null])).2.1
    "http://a/b.png" [JValue.null] rfl

/-! #### Retry-helper lemmas (C4) -/

theorem retryAux_spec {ε α : Type} (op : Nat → Except ε α) (base : Nat) :
    ∀ (remaining attempt : Nat),
      (1 ≤ (retryAux op base attempt remaining).2.1 ∧
        (retryAux op base attempt remaining).2.1 ≤ remaining + 1) ∧
      ((retryAux op base attempt remaining).2.2 =
        (List.range ((retryAux op base attempt remaining).2.1 - 1)).map
          (fun j => base * 2 ^ (attempt + j))) ∧
      (∀ i a, i ≤ remaining → op (attempt + i) = .ok a →
        (∀ j, j < i → ∃ e, op (attempt + j) = .error e) →
        (retryAux op base attempt remaining).1 = .ok a ∧
          (retryAux op base attempt remaining).2.1 = i + 1) ∧
      ((∀ j, j ≤ remaining → ∃ e, op (attempt + j) = .error e) →
        ∃ e, op (attempt + remaining) = .error e ∧
          (retryAux op base attempt remaining).1 = .error e) := by
  intro remaining
  induction remaining with
  | zero =>
    intro attempt
    cases hop : op attempt with
    | ok a =>
      refine ⟨⟨?_, ?_⟩, ?_, ?_, ?_⟩ <;> simp only [retryAux, hop]
      · omega
      · omega
      · simp
      · intro i a' hi hok _
        have hi0 : i = 0 := by omega
        subst hi0
        simp only [Nat.add_zero] at hok
        rw [hop] at hok
        simp only [Except.ok.injEq] at hok
        subst hok
        exact ⟨rfl, rfl⟩
      · intro hall
        obtain ⟨e, he⟩ := hall 0 (by omega)
        simp only [Nat.add_zero] at he
        rw [hop] at he
        exact absurd he (by simp)
    | error e =>
      refine ⟨⟨?_, ?_⟩, ?_, ?_, ?_⟩ <;> simp only [retryAux, hop]
      · omega
      · omega
      · simp
      · intro i a' hi hok _
        have hi0 : i = 0 := by omega
        subst hi0
        simp only [Nat.add_zero] at hok
        rw [hop] at hok
        exact absurd hok (by simp)
      · intro _
        exact ⟨e, by simpa using hop, rfl⟩
  | succ remaining ih =>
    intro attempt
    cases hop : op attempt with
    | ok a =>
      refine ⟨⟨?_, ?_⟩, ?_, ?_, ?_⟩ <;> simp only [retryAux, hop]
      · omega
      · omega
      · simp
      · intro i a' hi hok hfail
        cases i with
        | zero =>
          simp only [Nat.add_zero] at hok
          rw [hop] at hok
          simp only [Except.ok.injEq] at hok
          subst hok
          exact ⟨rfl, rfl⟩
        | succ i' =>
          obtain ⟨e, he⟩ := hfail 0 (by omega)
          simp only [Nat.add_zero] at he
          rw [hop] at he
          exact absurd he (by simp)
      · intro hall
        obtain ⟨e, he⟩ := hall 0 (by omega)
        simp only [Nat.add_zero] at he
        rw [hop] at he
        exact absurd he (by simp)
    | error e0 =>
      obtain ⟨⟨ihc1, ihc2⟩, ihd, ihs, ihf⟩ := ih (attempt + 1)
      refine ⟨⟨?_, ?_⟩, ?_, ?_, ?_⟩ <;> simp only [retryAux, hop]
      · omega
      · omega
      · -- delays: cons of the current backoff onto the shifted tail
        rw [ihd]
        have hc : (retryAux op base (attempt + 1) remaining).2.1 =
            ((retryAux op base (attempt + 1) remaining).2.1 - 1) + 1 := by omega
        rw [show (retryAux op base (attempt + 1) remaining).2.1 + 1 - 1 =
            ((retryAux op base (attempt + 1) remaining).2.1 - 1) + 1 by omega]
        rw [List.range_succ_eq_map, List.map_cons, List.map_map]
        refine congrArg₂ _ (by rw [Nat.add_zero]) ?_
        apply List.map_congr_left
        intro j _
        simp only [Function.comp_apply]
        rw [Nat.succ_eq_add_one, show attempt + (j + 1) = attempt + 1 + j from by omega]
      · intro i a' hi hok hfail
        cases i with
        | zero =>
          simp only [Nat.add_zero] at hok
          rw [hop] at hok
          exact absurd hok (by simp)
        | succ i' =>
          have hok' : op (attempt + 1 + i') = .ok a' := by
            rw [show attempt + 1 + i' = attempt + (i' + 1) by omega]
            exact hok
          have hfail' : ∀ j, j < i' → ∃ e, op (attempt + 1 + j) = .error e := by
            intro j hj
            obtain ⟨e, he⟩ := hfail (j + 1) (by omega)
            exact ⟨e, by rw [show attempt + 1 + j = attempt + (j + 1) by omega]; exact he⟩
          obtain ⟨hres, hcnt⟩ := ihs i' a' (by omega) hok' hfail'
          exact ⟨hres, by omega⟩
      · intro hall
        have hall' : ∀ j, j ≤ remaining → ∃ e, op (attempt + 1 + j) = .error e := by
          intro j hj
          obtain ⟨e, he⟩ := hall (j + 1) (by omega)
          exact ⟨e, by rw [show attempt + 1 + j = attempt + (j + 1) by omega]; exact he⟩
        obtain ⟨e, he, hres⟩ := ihf hall'
        refine ⟨e, ?_, hres⟩
        rw [show attempt + (remaining + 1) = attempt + 1 + remaining by omega]
        exact he

/-- C4: the retry helper invokes the operation between 1 and `retries + 1`
times, awaits `baseDelayMs * 2^attempt` after the failing attempt numbered
`attempt` (0-based) before the next one, returns the result of the first
successful invocation unchanged, and when every invocation fails raises the
last observed error (the one of attempt `retries`). -/
theorem comic_C4_withRetry {ε α : Type} (op : Nat → Except ε α) (retries baseDelayMs : Nat) :
    (1 ≤ (withRetryTrace op retries baseDelayMs).2.1 ∧
      (withRetryTrace op retries baseDelayMs).2.1 ≤ retries + 1) ∧
    ((withRetryTrace op retries baseDelayMs).2.2 =
      (List.range ((withRetryTrace op retries baseDelayMs).2.1 - 1)).map
        (fun j => baseDelayMs * 2 ^ j)) ∧
    (∀ i a, i ≤ retries → op i = .ok a → (∀ j, j < i → ∃ e, op j = .error e) →
      (withRetryTrace op retries baseDelayMs).1 = .ok a ∧
        (withRetryTrace op retries baseDelayMs).2.1 = i + 1) ∧
    ((∀ j, j ≤ retries → ∃ e, op j = .error e) →
      ∃ e, op retries = .error e ∧
        (withRetryTrace op retries baseDelayMs).1 = .error e) := by
  obtain ⟨hc, hd, hs, hf⟩ := retryAux_spec op baseDelayMs retries 0
  unfold withRetryTrace
  refine ⟨hc, ?_, ?_, ?_⟩
  · rw [hd]
    apply List.map_congr_left
    intro j _
    rw [Nat.zero_add]
  · intro i a hi hok hfail
    exact hs i a hi (by simpa using hok) (fun j hj => by simpa using hfail j hj)
  · intro hall
    obtain ⟨e, he, hres⟩ := hf (fun j hj => by simpa using hall j hj)
    exact ⟨e, by simpa using he, hres⟩

theorem comic_C4_witness :
    (withRetryTrace (fun i => if i = 1 then Except.ok 42 else Except.error "boom") 2 100).1
        = Except.ok 42 ∧
    (withRetryTrace (fun i => if i = 1 then Except.ok 42 else Except.error "boom") 2 100).2.1
        = 2 := by
  have h := (comic_C4_withRetry
      (fun i => if i = 1 then Except.ok 42 else Except.error "boom") 2 100).2.2.1
    1 42 (by omega) (by rfl) ?_
  · exact h
  · intro j hj
    have hj0 : j = 0 := by omega
    subst hj0
    exact ⟨"boom", rfl⟩

/-! #### Story-text and word-count lemmas (C5, C9) -/

theorem splitWs_joinSp :
    ∀ ts : List (List Char), (∀ t ∈ ts, t ≠ [] ∧ ∀ c ∈ t, ¬c.isWhitespace) →
      splitWs (joinSp ts) = ts := by
  intro ts
  induction ts with
  | nil => intro _; rfl
  | cons w ws ih =>
    intro h
    obtain ⟨hwne, hwns⟩ := h w (List.mem_cons_self w ws)
    have hws' : ∀ t ∈ ws, t ≠ [] ∧ ∀ c ∈ t, ¬c.isWhitespace :=
      fun t ht => h t (List.mem_cons_of_mem w ht)
    cases ws with
    | nil =>
      show splitWs (joinSp [w]) = [w]
      exact splitWs_single w hwne hwns
    | cons w2 ws2 =>
      rw [joinSp_cons w (by simp),
        splitWs_append_of_ws (show (' ' : Char).isWhitespace = true from rfl) w
          (joinSp (w2 :: ws2)),
        splitWs_single w hwne hwns, ih hws']
      rfl

theorem getStoryText_some_nonblank (extractPdf : String → Except String String)
    (data : ComicJobData) (t : String) (ht : data.storyText = some t)
    (htrim : (trimL t.data).isEmpty = false) :
    getStoryText extractPdf data = .ok t := by
  unfold getStoryText
  rw [ht]
  simp [htrim]

theorem getStoryText_blank (extractPdf : String → Except String String)
    (data : ComicJobData)
    (hblank : ∀ t, data.storyText = some t → (trimL t.data).isEmpty) :
    getStoryText extractPdf data = getStoryTextFallback extractPdf data := by
  unfold getStoryText
  cases hst : data.storyText with
  | none => rfl
  | some t => simp [hblank t hst]

/-- C9: the effective story text is the caller-provided text verbatim whenever
it is present and non-blank; otherwise, for a pdf input with a file path, it
is the extraction of that file; and (for extraction oracles whose errors are
extraction errors, not the two missing-input messages) a missing-input error
occurs exactly when neither non-blank caller text nor a pdf-typed source file
is provided. -/
theorem comic_C9_getStoryText (extractPdf : String → Except String String)
    (data : ComicJobData)
    (hx : ∀ p e, extractPdf p = .error e →
      e ≠ "Missing story text" ∧ e ≠ "Missing PDF file") :
    (∀ t, data.storyText = some t → (trimL t.data).isEmpty = false →
      getStoryText extractPdf data = .ok t) ∧
    ((∀ t, data.storyText = some t → (trimL t.data).isEmpty) →
      data.inputType = .pdf → ∀ p, data.filePath = some p →
      getStoryText extractPdf data = extractPdf p) ∧
    ((∃ e, getStoryText extractPdf data = .error e ∧
        (e = "Missing story text" ∨ e = "Missing PDF file")) ↔
      ((∀ t, data.storyText = some t → (trimL t.data).isEmpty) ∧
        ¬(data.inputType = .pdf ∧ data.filePath.isSome))) := by
  refine ⟨fun t ht htrim => getStoryText_some_nonblank extractPdf data t ht htrim, ?_, ?_⟩
  · intro hblank hpdf p hp
    rw [getStoryText_blank extractPdf data hblank]
    unfold getStoryTextFallback
    rw [hpdf, hp]
  · constructor
    · rintro ⟨e, he, hmiss⟩
      by_cases hblank : ∀ t, data.storyText = some t → (trimL t.data).isEmpty
      · rw [getStoryText_blank extractPdf data hblank] at he
        unfold getStoryTextFallback at he
        refine ⟨hblank, ?_⟩
        rintro ⟨hpdf, hsome⟩
        obtain ⟨p, hp⟩ := Option.isSome_iff_exists.mp hsome
        rw [hpdf, hp] at he
        rcases hmiss with h | h <;>
          exact absurd h (by have := hx p e he; tauto)
      · exfalso
        push_neg at hblank
        obtain ⟨t, ht, htrim⟩ := hblank
        have htrim' : (trimL t.data).isEmpty = false := by
          rcases Bool.eq_false_or_eq_true (trimL t.data).isEmpty with h | h
          · exact absurd h htrim
          · exact h
        rw [getStoryText_some_nonblank extractPdf data t ht htrim'] at he
        exact absurd he (by simp)
    · rintro ⟨hblank, hnot⟩
      rw [getStoryText_blank extractPdf data hblank]
      unfold getStoryTextFallback
      cases hty : data.inputType with
      | pdf =>
        cases hp : data.filePath with
        | none => exact ⟨"Missing PDF file", rfl, Or.inr rfl⟩
        | some p => exact absurd ⟨hty, by rw [hp]; rfl⟩ hnot
      | text => exact ⟨"Missing story text", rfl, Or.inl rfl⟩

theorem comic_C9_witness :
    getStoryText (fun _ => Except.ok "x") (mkTextData "story") = Except.ok "story" :=
  (comic_C9_getStoryText (fun _ => Except.ok "x") (mkTextData "story")
    (by intro p e h; simp at h)).1 "story" rfl (by decide)

/-- C5: a cleaned text of exactly MAX_WORDS words passes the word-count guard
(the pipeline proceeds to the first model call), exactly MAX_WORDS + 1 words
fails with the explicit too-long error independently of the analysis oracle
(before any model call); word counting yields the number of whitespace tokens
(0 for blank text), and cleaning trims then collapses every whitespace run to
a single space (the single-space join of the tokens). -/
theorem comic_C5_word_count_guard (s : String)
    (extractPdf : String → Except String String)
    (analyze : String → Except String String) :
    ((trimL s.data).isEmpty = false →
      storyThenAnalyze extractPdf analyze (mkTextData s) =
        (if countWords (cleanText s) > MAX_WORDS then .error tooLongMsg
         else analyze (cleanText s))) ∧
    (countWords (cleanText s) = MAX_WORDS →
      storyThenAnalyze extractPdf analyze (mkTextData s) = analyze (cleanText s)) ∧
    (countWords (cleanText s) = MAX_WORDS + 1 →
      storyThenAnalyze extractPdf analyze (mkTextData s) = .error tooLongMsg) ∧
    countWords (cleanText s) = (splitWs s.data).length ∧
    ((∀ c ∈ s.data, c.isWhitespace) → countWords s = 0) ∧
    (cleanText s).data = joinSp (splitWs s.data) := by
  have htok : ∀ t ∈ splitWs s.data, t ≠ [] ∧ ∀ c ∈ t, ¬c.isWhitespace :=
    fun t ht => ⟨splitWs_all_ne_nil s.data t ht, splitWs_all_not_ws s.data t ht⟩
  have hclean : (cleanText s).data = joinSp (splitWs s.data) := cleanText_data_eq s
  have hcount : countWords (cleanText s) = (splitWs s.data).length := by
    rw [countWords_eq_tokens (cleanText s), hclean, splitWs_joinSp (splitWs s.data) htok]
  have hmain : (trimL s.data).isEmpty = false →
      storyThenAnalyze extractPdf analyze (mkTextData s) =
        (if countWords (cleanText s) > MAX_WORDS then .error tooLongMsg
         else analyze (cleanText s)) := by
    intro htrim
    have hget : getStoryText extractPdf (mkTextData s) = .ok s :=
      getStoryText_some_nonblank extractPdf (mkTextData s) s rfl htrim
    unfold storyThenAnalyze storyGuardStage
    rw [hget]
    by_cases hgt : countWords (cleanText s) > MAX_WORDS
    · simp [hgt]
    · simp [hgt]
  have hnonblank : ∀ m : Nat, countWords (cleanText s) = m + 1 →
      (trimL s.data).isEmpty = false := by
    intro m hm
    rcases Bool.eq_false_or_eq_true (trimL s.data).isEmpty with h | h
    · exfalso
      rw [List.isEmpty_iff] at h
      have h0 : splitWs s.data = [] := by
        rw [← splitWs_trimL s.data, h]
        rfl
      rw [hcount, h0] at hm
      simp at hm
    · exact h
  refine ⟨hmain, ?_, ?_, hcount, ?_, hclean⟩
  · intro hmax
    rw [hmain (hnonblank 9999 (by rw [hmax]; rfl)), if_neg (by omega)]
  · intro hmax
    rw [hmain (hnonblank 10000 (by rw [hmax]; rfl)), if_pos (by omega)]
  · intro hall
    rw [countWords_eq_tokens s]
    unfold splitWs
    rw [splitWsAux_all_ws s.data [] hall]
    rfl

theorem comic_C5_witness :
    storyThenAnalyze (fun _ => Except.error "no file") Except.ok (mkTextData " a  b ") =
      Except.ok "a b" := by
  have h := (comic_C5_word_count_guard " a  b " (fun _ => Except.error "no file")
    Except.ok).1 (by decide)
  rw [h]
  rfl

/-! #### Orchestrator progress lemmas (C2) -/

theorem mem_of_getLast?_eq {α : Type} {l : List α} {x : α}
    (h : l.getLast? = some x) : x ∈ l := by
  obtain ⟨hne, heq⟩ := List.mem_getLast?_eq_getLast (show x ∈ l.getLast? from h)
  rw [heq]
  exact List.getLast_mem hne

theorem progressSeq_panelWrites (n : Nat) :
    progressSeq (panelWrites n) = (List.range n).map (fun i => panelProgressValue i n) := by
  unfold panelWrites progressSeq
  suffices h : ∀ l : List Nat,
      (l.flatMap fun i =>
        [⟨none, some (panelProgressValue i n), some (drawingStageLabel (i + 1) n), false⟩,
         (⟨none, none, none, true⟩ : JobWrite)]).filterMap (fun w => w.progress) =
      l.map (fun i => panelProgressValue i n) from h (List.range n)
  intro l
  induction l with
  | nil => rfl
  | cons a l ih =>
    rw [List.flatMap_cons, List.filterMap_append, ih]
    rfl

theorem progressSeq_internalWrites (n : Nat) :
    progressSeq (internalWrites n) =
      [5, 10, 20, 30, 40] ++
        (List.range n).map (fun i => panelProgressValue i n) ++ [85, 100] := by
  unfold internalWrites
  have hp := progressSeq_panelWrites n
  unfold progressSeq at hp ⊢
  rw [List.filterMap_append, List.filterMap_append, hp]
  rfl

theorem panelProgressValue_bounds (n i : Nat) (h : i < n) :
    40 ≤ panelProgressValue i n ∧ panelProgressValue i n ≤ 80 := by
  unfold panelProgressValue
  constructor
  · exact Nat.le_add_right 40 _
  · have h1 : (i + 1) * 40 / n ≤ n * 40 / n :=
      Nat.div_le_div_right (Nat.mul_le_mul_right 40 (by omega))
    have h2 : n * 40 / n = 40 := Nat.mul_div_cancel_left 40 (by omega)
    omega

theorem panelProgressValue_mono (n i j : Nat) (h : i ≤ j) :
    panelProgressValue i n ≤ panelProgressValue j n := by
  unfold panelProgressValue
  have h1 : (i + 1) * 40 ≤ (j + 1) * 40 := Nat.mul_le_mul_right 40 (by omega)
  have h2 : (i + 1) * 40 / n ≤ (j + 1) * 40 / n := Nat.div_le_div_right h1
  omega

theorem progressSeq_internal_le_100 (n : Nat) :
    ∀ x ∈ progressSeq (internalWrites n), x ≤ 100 := by
  intro x hx
  rw [progressSeq_internalWrites n] at hx
  simp only [List.mem_append] at hx
  rcases hx with (hx | hx) | hx
  · simp only [List.mem_cons, List.mem_singleton, List.not_mem_nil, or_false] at hx
    omega
  · obtain ⟨i, hi, rfl⟩ := List.mem_map.mp hx
    have := (panelProgressValue_bounds n i (List.mem_range.mp hi)).2
    omega
  · simp only [List.mem_cons, List.mem_singleton, List.not_mem_nil, or_false] at hx
    omega

theorem chain_progressSeq_internal (n : Nat) :
    List.Chain' (· ≤ ·) (progressSeq (internalWrites n)) := by
  rw [progressSeq_internalWrites n]
  rw [List.chain'_append]
  refine ⟨?_, by norm_num [List.chain'_cons], ?_⟩
  · rw [List.chain'_append]
    refine ⟨by norm_num [List.chain'_cons], ?_, ?_⟩
    · rw [List.chain'_map]
      cases n with
      | zero => simp
      | succ m =>
        rw [List.chain'_range_succ]
        intro k _
        exact panelProgressValue_mono (m + 1) k (k + 1) (by omega)
    · -- 40 (last of the constant prefix) is below every first panel value
      intro x hx y hy
      have hx40 : x = 40 := by
        simp only [List.getLast?_cons_cons, List.getLast?_singleton,
          Option.mem_def, Option.some.injEq] at hx
        omega
      subst hx40
      have hym := List.mem_of_mem_head? hy
      obtain ⟨i, hi, rfl⟩ := List.mem_map.mp hym
      exact (panelProgressValue_bounds n i (List.mem_range.mp hi)).1
  · -- everything before the 85 write stays at or below 80 (or is a stage value ≤ 40)
    intro x hx y hy
    have hy85 : y = 85 := by
      simp only [List.head?_cons, Option.mem_def, Option.some.injEq] at hy
      omega
    subst hy85
    have hxm := mem_of_getLast?_eq hx
    simp only [List.mem_append] at hxm
    rcases hxm with hxm | hxm
    · simp only [List.mem_cons, List.mem_singleton, List.not_mem_nil, or_false] at hxm
      omega
    · obtain ⟨i, hi, rfl⟩ := List.mem_map.mp hxm
      have := (panelProgressValue_bounds n i (List.mem_range.mp hi)).2
      omega

/-- C2 (amended): the writes performed by `processComicJobInternal` itself
are monotonically non-decreasing and follow the stage order initializing(5),
extracting-text(10), analyzing-story(20), generating-script(30),
drawing-panels(40, then one write per panel rising to 80 before that panel's
work), building-pdf(85), completed(100); a run stopped by an error ends in
the catch handler's terminal failed(100) write and its full write sequence is
also non-decreasing; but on timeout the failed(100) write races the
still-running pipeline (`Promise.race` does not cancel it and `updateJob` has
no terminal guard), so only the pipeline's own writes — the timeout trace
with the interleaved failed(100) write removed — are guaranteed
non-decreasing there. -/
theorem comic_C2_progress_monotone (n k j : Nat) :
    progressSeq (internalWrites n) =
      [5, 10, 20, 30, 40] ++
        (List.range n).map (fun i => panelProgressValue i n) ++ [85, 100] ∧
    List.Chain' (· ≤ ·) (progressSeq (observedWrites n .success)) ∧
    List.Chain' (· ≤ ·) (progressSeq (observedWrites n (.errorAt k))) ∧
    (progressSeq (observedWrites n .success)).getLast? = some 100 ∧
    (progressSeq (observedWrites n (.errorAt k))).getLast? = some 100 ∧
    (∃ w, (observedWrites n .success).getLast? = some w ∧
      w.progress = some 100 ∧ w.status = some JobStatus.completed) ∧
    (∃ w, (observedWrites n (.errorAt k)).getLast? = some w ∧
      w.progress = some 100 ∧ w.status = some JobStatus.failed) ∧
    List.Chain' (· ≤ ·)
      (progressSeq ((internalWrites n).take k ++ ((internalWrites n).drop k).take j)) ∧
    (∀ i, i < n → 40 ≤ panelProgressValue i n ∧ panelProgressValue i n ≤ 80) ∧
    (1 ≤ n → panelProgressValue (n - 1) n = 80) := by
  have herr : List.Chain' (· ≤ ·) (progressSeq (observedWrites n (.errorAt k))) := by
    show List.Chain' (· ≤ ·) (progressSeq ((internalWrites n).take k ++ [failedWrite]))
    unfold progressSeq
    rw [List.filterMap_append]
    rw [List.chain'_append]
    refine ⟨?_, by
      rw [show List.filterMap (fun w => w.progress) [failedWrite] = [100] from rfl]
      exact List.chain'_singleton 100, ?_⟩
    · refine List.Chain'.sublist (chain_progressSeq_internal n) ?_
      exact List.Sublist.filterMap _ (List.take_sublist k (internalWrites n))
    · intro x hx y hy
      have hy100 : y = 100 := by
        have := List.mem_of_mem_head? hy
        simp only [show List.filterMap (fun w => w.progress) [failedWrite] = [100] from rfl,
          List.mem_singleton] at this
        exact this
      subst hy100
      apply progressSeq_internal_le_100 n
      exact (List.Sublist.filterMap (fun w => w.progress)
        (List.take_sublist k (internalWrites n))).subset (mem_of_getLast?_eq hx)
  refine ⟨progressSeq_internalWrites n, chain_progressSeq_internal n, herr,
    ?_, ?_, ?_, ?_, ?_, fun i hi => panelProgressValue_bounds n i hi, ?_⟩
  · show (progressSeq (internalWrites n)).getLast? = some 100
    rw [progressSeq_internalWrites n, List.getLast?_append]
    rfl
  · show (progressSeq ((internalWrites n).take k ++ [failedWrite])).getLast? = some 100
    unfold progressSeq
    rw [List.filterMap_append, List.getLast?_append]
    rfl
  · refine ⟨⟨some JobStatus.completed, some 100, some "completed", true⟩, ?_, rfl, rfl⟩
    show (internalWrites n).getLast? = _
    unfold internalWrites
    rw [List.getLast?_append]
    rfl
  · refine ⟨failedWrite, ?_, rfl, rfl⟩
    show ((internalWrites n).take k ++ [failedWrite]).getLast? = some failedWrite
    rw [List.getLast?_append]
    rfl
  · -- the pipeline's own writes in a timeout run are a sublist of the full run
    have hsub : List.Sublist
        ((internalWrites n).take k ++ ((internalWrites n).drop k).take j)
        (internalWrites n) := by
      have h1 := List.Sublist.append (List.Sublist.refl ((internalWrites n).take k))
        (List.take_sublist j ((internalWrites n).drop k))
      rw [List.take_append_drop] at h1
      exact h1
    exact List.Chain'.sublist (chain_progressSeq_internal n)
      (List.Sublist.filterMap _ hsub)
  · intro hn
    unfold panelProgressValue
    rw [show n - 1 + 1 = n from by omega, Nat.mul_div_cancel_left 40 (by omega)]

/-- C2 counterexample: `Promise.race` does not cancel
`processComicJobInternal` and `updateJob` (a bare `Object.assign`) has no
terminal-state guard, so when the timeout fires the catch handler's
failed(100) write is followed by the still-running pipeline's next writes.
With one panel and the timer firing after the extracting-text write, the
job record receives the progress sequence 5, 10, 100, 20 — an observer sees
progress go backward after the terminal failed(100) write, refuting the
claimed monotonicity and terminality. -/
theorem comic_C2_timeout_goes_backward :
    progressSeq (observedWrites 1 (.timeoutAt 2 2)) = [5, 10, 100, 20] ∧
    ¬ List.Chain' (· ≤ ·) (progressSeq (observedWrites 1 (.timeoutAt 2 2))) := by
  refine ⟨by decide, ?_⟩
  intro h
  rw [show progressSeq (observedWrites 1 (.timeoutAt 2 2)) = [5, 10, 100, 20] from by decide] at h
  rw [List.chain'_cons, List.chain'_cons, List.chain'_cons] at h
  omega

theorem comic_C2_witness :
    progressSeq (observedWrites 4 (.errorAt 3)) = [5, 10, 100] ∧
    List.Chain' (· ≤ ·) (progressSeq (observedWrites 4 (.errorAt 3))) ∧
    progressSeq (internalWrites 4) = [5, 10, 20, 30, 40, 50, 60, 70, 80, 85, 100] := by
  refine ⟨by decide, (comic_C2_progress_monotone 4 3 0).2.2.1, ?_⟩
  rw [(comic_C2_progress_monotone 4 3 0).1]
  decide

/-! #### PDF-layout lemmas (C6) -/

theorem PanelsPerPage.two_le_val (p : PanelsPerPage) : 2 ≤ p.val := by
  cases p <;> decide

/-- Closed form of the chunking page loop: panel `i` is placed by
`placePanel` with page `pageIdx + i / p.val + 1` and in-page index
`i % p.val`. -/
theorem layoutAux_getElem? (p : PanelsPerPage) :
    ∀ (fuel : Nat) (dims : List (ℚ × ℚ)) (pageIdx i : Nat),
      dims.length ≤ fuel →
      (layoutAux p fuel pageIdx dims)[i]? =
        (dims[i]?).map (fun dim => placePanel p (pageIdx + i / p.val + 1) (i % p.val) dim) := by
  intro fuel
  induction fuel with
  | zero =>
    intro dims pageIdx i hfuel
    have hnil : dims = [] := List.length_eq_zero.mp (by omega)
    subst hnil
    rfl
  | succ fuel ih =>
    intro dims pageIdx i hfuel
    have hval := PanelsPerPage.two_le_val p
    cases dims with
    | nil => rfl
    | cons d rest =>
      show ((((d :: rest).take p.val).enum.map
          fun je => placePanel p (pageIdx + 1) je.1 je.2) ++
            layoutAux p fuel (pageIdx + 1) ((d :: rest).drop p.val))[i]? = _
      set dims := d :: rest with hdims
      have hbatchlen : (((dims.take p.val).enum.map
          fun je => placePanel p (pageIdx + 1) je.1 je.2)).length = min p.val dims.length := by
        rw [List.length_map, List.enum_length, List.length_take]
      rw [List.getElem?_append, hbatchlen]
      by_cases hi : i < min p.val dims.length
      · rw [if_pos hi]
        have hip : i < p.val := by omega
        rw [List.getElem?_map, List.getElem?_enum, List.getElem?_take, if_pos hip]
        rw [Nat.div_eq_of_lt hip, Nat.mod_eq_of_lt hip]
        cases hd : dims[i]? with
        | none => rfl
        | some dim => rfl
      · rw [if_neg hi]
        by_cases hlen : dims.length ≤ p.val
        · -- nothing left after this page
          have hil : dims.length ≤ i := by omega
          rw [ih (dims.drop p.val) (pageIdx + 1) (i - min p.val dims.length)
            (by rw [List.length_drop]; omega)]
          rw [List.getElem?_drop, List.getElem?_eq_none hil,
            List.getElem?_eq_none
              (show dims.length ≤ p.val + (i - min p.val dims.length) from by omega)]
          rfl
        · -- the panel is on a later page
          have hip : p.val ≤ i := by omega
          have hmin : min p.val dims.length = p.val := by omega
          rw [hmin]
          rw [ih (dims.drop p.val) (pageIdx + 1) (i - p.val)
            (by rw [List.length_drop]; omega)]
          rw [List.getElem?_drop, show p.val + (i - p.val) = i from by omega]
          have hdiv : i / p.val = (i - p.val) / p.val + 1 :=
            Nat.div_eq_sub_div (by omega) hip
          have hmod : i % p.val = (i - p.val) % p.val := Nat.mod_eq_sub_mod hip
          rw [hdiv, hmod]
          cases dims[i]? with
          | none => rfl
          | some dim =>
            show some _ = some _
            refine congrArg _ ?_
            refine congrArg₂ (fun a b => placePanel p a b dim) ?_ rfl
            omega

/-- C6: panel `i` lands on page `i / panelsPerPage + 1` at in-page position
`i % panelsPerPage` in a 2-column, `panelsPerPage / 2`-row grid (filled
left-to-right then top-to-bottom), and its image is drawn scaled uniformly by
`min (cellWidth / imageWidth) (cellHeight / imageHeight)` and centered within
its cell. -/
theorem comic_C6_layout (p : PanelsPerPage) (dims : List (ℚ × ℚ)) (i : Nat)
    (h : i < dims.length) :
    pdfColumns = 2 ∧ rowsPerPage p = p.val / 2 ∧
    ∃ pl, (layoutPanels p dims)[i]? = some pl ∧
      pl.page = i / p.val + 1 ∧
      pl.cellX = pdfMargin + (((i % p.val) % pdfColumns : Nat) : ℚ) * (cellWidth + pdfGutter) ∧
      pl.cellY = pageHeightPt - pdfMargin -
        (((i % p.val) / pdfColumns : Nat) : ℚ) * (cellHeight p + pdfGutter) - cellHeight p ∧
      (i % p.val) / pdfColumns < rowsPerPage p ∧
      (∀ iw ihh : ℚ, dims.get ⟨i, h⟩ = (iw, ihh) →
        pl.imgW = iw * min (cellWidth / iw) (cellHeight p / ihh) ∧
        pl.imgH = ihh * min (cellWidth / iw) (cellHeight p / ihh) ∧
        pl.imgX = pl.cellX + (cellWidth - pl.imgW) / 2 ∧
        pl.imgY = pl.cellY + (cellHeight p - pl.imgH) / 2) := by
  refine ⟨rfl, rfl, placePanel p (i / p.val + 1) (i % p.val) (dims.get ⟨i, h⟩),
    ?_, rfl, rfl, rfl, ?_, ?_⟩
  · unfold layoutPanels
    rw [layoutAux_getElem? p dims.length dims 0 i (le_refl _)]
    rw [List.getElem?_eq_getElem h]
    rw [show 0 + i / p.val + 1 = i / p.val + 1 from by omega]
    rfl
  · -- the row index stays within the page grid
    cases p <;> (simp only [rowsPerPage, PanelsPerPage.val, pdfColumns]; omega)
  · intro iw ihh hdim
    unfold placePanel
    rw [hdim]
    exact ⟨rfl, rfl, rfl, rfl⟩

theorem comic_C6_witness :
    ∃ pl, (layoutPanels PanelsPerPage.four
        [((1280 : ℚ), (720 : ℚ)), (100, 50), (20, 30), (40, 40), (7, 9)])[4]? = some pl ∧
      pl.page = 2 := by
  obtain ⟨_, _, pl, h1, h2, _⟩ := comic_C6_layout PanelsPerPage.four
    [((1280 : ℚ), (720 : ℚ)), (100, 50), (20, 30), (40, 40), (7, 9)] 4 (by decide)
  exact ⟨pl, h1, by rw [h2]; rfl⟩

/-! #### Panel file name and listing lemmas (C8) -/

theorem decimalAux_small (fuel m : Nat) (hfuel : 0 < fuel) (hm : m < 10) :
    decimalAux fuel m = [Nat.digitChar m] := by
  cases fuel with
  | zero => omega
  | succ f =>
    show (if m < 10 then [Nat.digitChar m] else _) = _
    rw [if_pos hm]

theorem decimalAux_mid (fuel m : Nat) (hfuel : 2 ≤ fuel) (hm1 : 10 ≤ m) (hm2 : m < 100) :
    decimalAux fuel m = [Nat.digitChar (m / 10), Nat.digitChar (m % 10)] := by
  cases fuel with
  | zero => omega
  | succ f =>
    show (if m < 10 then [Nat.digitChar m] else decimalAux f (m / 10) ++ [Nat.digitChar (m % 10)]) = _
    rw [if_neg (by omega), decimalAux_small f (m / 10) (by omega) (by omega)]
    rfl

/-- `String(i).padStart(3, '0')` for `i < 1000` is the three decimal digits. -/
theorem panelIndexStr_lt1000 (i : Nat) (h : i < 1000) :
    panelIndexStr i =
      [Nat.digitChar (i / 100), Nat.digitChar (i / 10 % 10), Nat.digitChar (i % 10)] := by
  unfold panelIndexStr decimalRepr padStart3
  by_cases h1 : i < 10
  · rw [decimalAux_small (i + 1) i (by omega) h1]
    rw [show i / 100 = 0 from by omega, show i / 10 % 10 = 0 from by omega,
      show i % 10 = i from by omega]
    rfl
  · by_cases h2 : i < 100
    · rw [decimalAux_mid (i + 1) i (by omega) (by omega) h2]
      rw [show i / 100 = 0 from by omega, show i / 10 % 10 = i / 10 from by omega]
      rfl
    · -- 100 <= i < 1000: three digits, no padding
      have hstep : decimalAux (i + 1) i = decimalAux i (i / 10) ++ [Nat.digitChar (i % 10)] := by
        show (if i < 10 then [Nat.digitChar i]
            else decimalAux i (i / 10) ++ [Nat.digitChar (i % 10)]) = _
        rw [if_neg h1]
      rw [hstep, decimalAux_mid i (i / 10) (by omega) (by omega) (by omega),
        Nat.div_div_eq_div_mul, show (10 * 10 : Nat) = 100 from rfl]
      rfl

theorem digitChar_toNat (d : Nat) (h : d < 10) : (Nat.digitChar d).toNat = 48 + d := by
  interval_cases d <;> rfl

theorem lexLe_refl (l : List Char) : lexLe l l = true := by
  induction l with
  | nil => rfl
  | cons c cs ih =>
    show (if c.toNat < c.toNat then true
      else if c.toNat < c.toNat then false else lexLe cs cs) = true
    rw [if_neg (lt_irrefl _), if_neg (lt_irrefl _)]
    exact ih

theorem lexLe_append_same (pre : List Char) :
    ∀ a b : List Char, lexLe (pre ++ a) (pre ++ b) = lexLe a b := by
  induction pre with
  | nil => intro a b; rfl
  | cons c cs ih =>
    intro a b
    show (if c.toNat < c.toNat then true
      else if c.toNat < c.toNat then false else lexLe (cs ++ a) (cs ++ b)) = lexLe a b
    rw [if_neg (lt_irrefl _), if_neg (lt_irrefl _)]
    exact ih a b

theorem lexLe_total : ∀ a b : List Char, lexLe a b = true ∨ lexLe b a = true := by
  intro a
  induction a with
  | nil => intro b; exact Or.inl rfl
  | cons x xs ih =>
    intro b
    cases b with
    | nil => exact Or.inr rfl
    | cons y ys =>
      show (if x.toNat < y.toNat then true
          else if y.toNat < x.toNat then false else lexLe xs ys) = true ∨
        (if y.toNat < x.toNat then true
          else if x.toNat < y.toNat then false else lexLe ys xs) = true
      rcases Nat.lt_trichotomy x.toNat y.toNat with h | h | h
      · left; rw [if_pos h]
      · rw [if_neg (by omega), if_neg (by omega), if_neg (by omega), if_neg (by omega)]
        exact ih ys
      · right; rw [if_pos h]

theorem lexLe_trans :
    ∀ a b c : List Char, lexLe a b = true → lexLe b c = true → lexLe a c = true := by
  intro a
  induction a with
  | nil => intro b c _ _; rfl
  | cons x xs ih =>
    intro b c hab hbc
    cases b with
    | nil => simp [lexLe] at hab
    | cons y ys =>
      cases c with
      | nil => simp [lexLe] at hbc
      | cons z zs =>
        show (if x.toNat < z.toNat then true
          else if z.toNat < x.toNat then false else lexLe xs zs) = true
        have hab' : (if x.toNat < y.toNat then true
            else if y.toNat < x.toNat then false else lexLe xs ys) = true := hab
        have hbc' : (if y.toNat < z.toNat then true
            else if z.toNat < y.toNat then false else lexLe ys zs) = true := hbc
        by_cases hxy : x.toNat < y.toNat
        · -- x < y ≤ z or x < y, y vs z
          by_cases hyz : y.toNat < z.toNat
          · rw [if_pos (by omega)]
          · rw [if_neg hyz] at hbc'
            by_cases hzy : z.toNat < y.toNat
            · rw [if_pos hzy] at hbc'
              exact absurd hbc' (by simp)
            · -- y = z
              rw [if_pos (by omega)]
        · rw [if_neg hxy] at hab'
          by_cases hyx : y.toNat < x.toNat
          · rw [if_pos hyx] at hab'
            exact absurd hab' (by simp)
          · -- x = y
            rw [if_neg hyx] at hab'
            by_cases hyz : y.toNat < z.toNat
            · rw [if_pos (by omega)]
            · rw [if_neg hyz] at hbc'
              by_cases hzy : z.toNat < y.toNat
              · rw [if_pos hzy] at hbc'
                exact absurd hbc' (by simp)
              · rw [if_neg hzy] at hbc'
                rw [if_neg (by omega), if_neg (by omega)]
                exact ih ys zs hab' hbc'

theorem lexLe_antisymm :
    ∀ a b : List Char, lexLe a b = true → lexLe b a = true → a = b := by
  intro a
  induction a with
  | nil =>
    intro b _ hba
    cases b with
    | nil => rfl
    | cons y ys => simp [lexLe] at hba
  | cons x xs ih =>
    intro b hab hba
    cases b with
    | nil => simp [lexLe] at hab
    | cons y ys =>
      have hab' : (if x.toNat < y.toNat then true
          else if y.toNat < x.toNat then false else lexLe xs ys) = true := hab
      have hba' : (if y.toNat < x.toNat then true
          else if x.toNat < y.toNat then false else lexLe ys xs) = true := hba
      by_cases hxy : x.toNat < y.toNat
      · rw [if_neg (by omega), if_pos hxy] at hba'
        exact absurd hba' (by simp)
      · by_cases hyx : y.toNat < x.toNat
        · rw [if_neg hxy, if_pos hyx] at hab'
          exact absurd hab' (by simp)
        · rw [if_neg hxy, if_neg hyx] at hab'
          rw [if_neg hyx, if_neg hxy] at hba'
          have h1 : x.toNat = y.toNat := by omega
          have h2 : x.val.toNat = y.val.toNat := h1
          have hchar : x = y := Char.ext (UInt32.toNat.inj h2)
          rw [hchar, ih ys hab' hba']

theorem lexLe_pad (i j : Nat) (hi : i < 1000) (hj : j < 1000) (s : List Char) :
    lexLe (panelIndexStr i ++ s) (panelIndexStr j ++ s) = true ↔ i ≤ j := by
  rw [panelIndexStr_lt1000 i hi, panelIndexStr_lt1000 j hj]
  have d1i := digitChar_toNat (i / 100) (by omega)
  have d2i := digitChar_toNat (i / 10 % 10) (by omega)
  have d3i := digitChar_toNat (i % 10) (by omega)
  have d1j := digitChar_toNat (j / 100) (by omega)
  have d2j := digitChar_toNat (j / 10 % 10) (by omega)
  have d3j := digitChar_toNat (j % 10) (by omega)
  show lexLe
      (Nat.digitChar (i / 100) :: Nat.digitChar (i / 10 % 10) :: Nat.digitChar (i % 10) :: s)
      (Nat.digitChar (j / 100) :: Nat.digitChar (j / 10 % 10) :: Nat.digitChar (j % 10) :: s)
      = true ↔ i ≤ j
  simp only [lexLe]
  rw [d1i, d2i, d3i, d1j, d2j, d3j, lexLe_refl s]
  split_ifs <;> simp_all <;> omega

theorem fileLe_panelFileName (i j : Nat) (hi : i < 1000) (hj : j < 1000) :
    fileLe (panelFileName i) (panelFileName j) ↔ i ≤ j := by
  unfold fileLe
  show lexLe (("panel-".data ++ panelIndexStr i) ++ ".png".data)
      (("panel-".data ++ panelIndexStr j) ++ ".png".data) = true ↔ i ≤ j
  rw [List.append_assoc, List.append_assoc, lexLe_append_same]
  exact lexLe_pad i j hi hj ".png".data

theorem panelFileName_endsWith_png (i : Nat) :
    endsWithStr (panelFileName i) ".png" = true := by
  unfold endsWithStr
  rw [List.isSuffixOf_iff_suffix]
  show ".png".data <:+ panelBaseName i ++ ".png".data
  exact List.suffix_append _ _

theorem rawPanelFileName_endsWith_raw (i : Nat) :
    endsWithStr (rawPanelFileName i) ".raw.png" = true := by
  unfold endsWithStr
  rw [List.isSuffixOf_iff_suffix]
  show ".raw.png".data <:+ panelBaseName i ++ ".raw.png".data
  exact List.suffix_append _ _

/-- A final panel file name never carries the `.raw.png` suffix: position 5
from the end of `panel-NNN.png` holds `-`, not `.`. -/
theorem panelFileName_not_raw (i : Nat) (h : i < 1000) :
    endsWithStr (panelFileName i) ".raw.png" = false := by
  rw [Bool.eq_false_iff]
  intro hsuf
  unfold endsWithStr at hsuf
  rw [List.isSuffixOf_iff_suffix] at hsuf
  obtain ⟨t, ht⟩ := hsuf
  have hdata : (panelFileName i).data =
      "panel-".data ++ (panelIndexStr i ++ ".png".data) := by
    show ("panel-".data ++ panelIndexStr i) ++ ".png".data = _
    rw [List.append_assoc]
  rw [hdata, panelIndexStr_lt1000 i h] at ht
  have hlent : t.length = 5 := by
    have hlen := congrArg List.length ht
    have l1 : (".raw.png".data).length = 8 := rfl
    have l2 : ("panel-".data).length = 6 := rfl
    have l3 : (".png".data).length = 4 := rfl
    simp only [List.length_append, l1, l2, l3, List.length_cons, List.length_nil] at hlen
    omega
  have hdrop : List.drop 5 (t ++ ".raw.png".data) = ".raw.png".data :=
    List.drop_left' hlent
  rw [ht] at hdrop
  have h0 : (List.drop 5 ("panel-".data ++
      ([Nat.digitChar (i / 100), Nat.digitChar (i / 10 % 10), Nat.digitChar (i % 10)] ++
        ".png".data)))[0]? = some '-' := rfl
  rw [hdrop] at h0
  exact absurd h0 (by decide)

theorem filter_panelEntries (l : List Nat) (hlt : ∀ i ∈ l, i < 1000) :
    (l.flatMap fun i => [rawPanelFileName i, panelFileName i]).filter
      (fun f => endsWithStr f ".png" && !endsWithStr f ".raw.png") =
    l.map panelFileName := by
  induction l with
  | nil => rfl
  | cons a l ih =>
    have ha : a < 1000 := hlt a (List.mem_cons_self a l)
    rw [List.flatMap_cons, List.filter_append,
      ih (fun i hi => hlt i (List.mem_cons_of_mem a hi))]
    have hfilter : List.filter (fun f => endsWithStr f ".png" && !endsWithStr f ".raw.png")
        [rawPanelFileName a, panelFileName a] = [panelFileName a] := by
      simp [List.filter, rawPanelFileName_endsWith_raw a, panelFileName_endsWith_png a,
        panelFileName_not_raw a ha]
    rw [hfilter]
    rfl

/-- C8: final panels are written as zero-padded `panel-NNN.png` (with a
`panel-NNN.raw.png` sibling), and for any directory content consisting of
those files for a set of indices below 1000, in any order, the assembler's
listing (keep `.png` but not `.raw.png`, sort lexicographically, take
`panelCount`) is the panels in ascending index order — i.e. generation
order. -/
theorem comic_C8_listPanelPngs (l : List Nat) (es : List String) (pc : Nat)
    (hlt : ∀ i ∈ l, i < 1000)
    (hperm : es.Perm (l.flatMap fun i => [rawPanelFileName i, panelFileName i])) :
    listPanelPngs es = (List.insertionSort (· ≤ ·) l).map panelFileName ∧
    (listPanelPngs es).take pc = ((List.insertionSort (· ≤ ·) l).map panelFileName).take pc ∧
    (∀ i ∈ l, (panelFileName i).data = "panel-".data ++ [Nat.digitChar (i / 100),
        Nat.digitChar (i / 10 % 10), Nat.digitChar (i % 10)] ++ ".png".data ∧
      (rawPanelFileName i).data = "panel-".data ++ [Nat.digitChar (i / 100),
        Nat.digitChar (i / 10 % 10), Nat.digitChar (i % 10)] ++ ".raw.png".data) := by
  haveI htot : IsTotal String fileLe := ⟨fun a b => lexLe_total a.data b.data⟩
  haveI htrans : IsTrans String fileLe :=
    ⟨fun a b c hab hbc => lexLe_trans a.data b.data c.data hab hbc⟩
  haveI hanti : IsAntisymm String fileLe := ⟨by
    intro a b hab hba
    cases a with
    | mk da =>
      cases b with
      | mk db =>
        have : da = db := lexLe_antisymm da db hab hba
        rw [this]⟩
  have hmain : listPanelPngs es = (List.insertionSort (· ≤ ·) l).map panelFileName := by
    unfold listPanelPngs
    apply List.eq_of_perm_of_sorted (r := fileLe)
    · have hfe : List.filter (fun f => endsWithStr f ".png" && !endsWithStr f ".raw.png") es
          |>.Perm (l.map panelFileName) := by
        rw [← filter_panelEntries l hlt]
        exact List.Perm.filter _ hperm
      exact (List.perm_insertionSort fileLe _).trans
        (hfe.trans ((List.perm_insertionSort (· ≤ ·) l).map panelFileName).symm)
    · exact List.sorted_insertionSort fileLe _
    · show List.Sorted fileLe ((List.insertionSort (· ≤ ·) l).map panelFileName)
      rw [List.Sorted, List.pairwise_map]
      have hs : List.Sorted (· ≤ ·) (List.insertionSort (· ≤ ·) l) :=
        List.sorted_insertionSort (· ≤ ·) l
      refine List.Pairwise.imp_of_mem ?_ hs
      intro a b ha hb hab
      have ha' : a < 1000 := hlt a ((List.perm_insertionSort (· ≤ ·) l).subset ha)
      have hb' : b < 1000 := hlt b ((List.perm_insertionSort (· ≤ ·) l).subset hb)
      exact (fileLe_panelFileName a b ha' hb').mpr hab
  refine ⟨hmain, by rw [hmain], ?_⟩
  intro i hi
  have h3 := panelIndexStr_lt1000 i (hlt i hi)
  constructor
  · show ("panel-".data ++ panelIndexStr i) ++ ".png".data = _
    rw [h3]
  · show ("panel-".data ++ panelIndexStr i) ++ ".raw.png".data = _
    rw [h3]

theorem comic_C8_witness :
    listPanelPngs ([2, 0, 1].flatMap fun i => [rawPanelFileName i, panelFileName i]) =
      ["panel-000.png", "panel-001.png", "panel-002.png"] := by
  rw [(comic_C8_listPanelPngs [2, 0, 1]
      ([2, 0, 1].flatMap fun i => [rawPanelFileName i, panelFileName i]) 3
      (by decide) (List.Perm.refl _)).1]
  decide
